import Mathlib

/-!
# Verification of the yaml-to-tfvars converter

A shallow embedding of the single source file of this repository,
scripts/yaml-to-tfvars.py, together with theorems settling the frozen
claims about its specification.

The script converts a parsed YAML configuration document into a
Terraform tfvars text.  Its core pieces are:

* to_hcl_value - a recursive serializer from Python values to HCL text;
* yaml_to_tfvars - the whitelisting driver that assembles output lines;
* validate_config - a validator returning a list of problem strings;
* main - the CLI driver with exit codes.

Python values produced by yaml.safe_load are modelled by the inductive
type YVal below: None, bool, int, float, str, list, dict (string keys,
in insertion order).  A finite float is represented by its canonical
repr text (constructor YVal.float): CPython guarantees that str on a
finite float is the shortest decimal literal that reads back as the
same float, so the text is a faithful name for the value, two finite
floats are equal exactly when their canonical literals are, and the
str call of source line 31 is the identity on the representation.  The
FloatTok predicate below characterizes the shape of these literals
(optional minus sign, digits, then a fractional part and/or a signed
exponent).  The non-finite floats inf, -inf and nan are outside the
universe: str renders them as bare words that are not literals of the
target grammar at all.  Exceptions raised by the Python code
(attribute errors on type-confused values) are modelled by the Except
monad.
-/

/-- A Python value as produced by yaml.safe_load: None, bool, int,
finite float (carried as its canonical shortest repr text), str, list,
or dict with string keys in insertion order. -/
inductive YVal where
  | null : YVal
  | bool (b : Bool) : YVal
  | int (n : Int) : YVal
  | float (m : String) : YVal
  | str (s : String) : YVal
  | list (xs : List YVal) : YVal
  | dict (kvs : List (String × YVal)) : YVal

/-- Python truthiness of a value: None, False, 0, empty string, empty
list and empty dict are falsy, everything else is truthy. -/
def truthy : YVal → Bool
  | .null => false
  | .bool b => b
  | .int n => n != 0
  | .float m => !(m == "0.0" || m == "-0.0")
  | .str s => s != ""
  | .list xs => !xs.isEmpty
  | .dict kvs => !kvs.isEmpty

/-- Dictionary lookup, first matching key (Python dict keys are unique,
so first-match lookup is faithful). -/
def dget : List (String × YVal) → String → Option YVal
  | [], _ => none
  | (k, v) :: d, key => if k = key then some v else dget d key

/-- Python d.get(key): the value, or None when the key is absent. -/
def vget (d : List (String × YVal)) (key : String) : YVal :=
  (dget d key).getD .null

/-- Python membership test: key in d. -/
def hasKey (d : List (String × YVal)) (key : String) : Bool :=
  (dget d key).isSome

/-- Decimal digit character for a digit value below 10. -/
def digitChar (d : Nat) : Char := Char.ofNat (48 + d)

/-- Decimal digit run of a natural number, most significant first,
with explicit fuel (any fuel above the number is enough). -/
def natChars (fuel : Nat) (n : Nat) : List Char :=
  match fuel with
  | 0 => []
  | f + 1 => if n < 10 then [digitChar n] else natChars f (n / 10) ++ [digitChar (n % 10)]

/-- Decimal text of a natural number, embedding the Python str function
on nonnegative integers. -/
def natStr (n : Nat) : String := ⟨natChars (n + 1) n⟩

/-- Decimal text of an integer, embedding the Python str function on
integers: a minus sign followed by the digits when negative. -/
def intStr : Int → String
  | .ofNat n => natStr n
  | .negSucc m => "-" ++ natStr (m + 1)

/-- Python single-character str.replace: every occurrence of the
character old is replaced by the string new. -/
def replaceChar (l : List Char) (old : Char) (new : List Char) : List Char :=
  match l with
  | [] => []
  | c :: cs => (if c = old then new else [c]) ++ replaceChar cs old new

/-- The string escaping performed by to_hcl_value, embedding the source
line value.replace two times in sequence: first every backslash becomes
two backslashes, then every double quote becomes backslash quote. -/
def pyEscape (s : String) : String :=
  ⟨replaceChar (replaceChar s.data '\\' ['\\', '\\']) '"' ['\\', '"']⟩

/-- Python str.join with a separator, used for the comma-space join of
list items, the newline join of dict entries and the final line join. -/
def joinSep (sep : String) : List String → String
  | [] => ""
  | [x] => x
  | x :: xs => x ++ sep ++ joinSep sep xs

/-- A run of n space characters, embedding the indent strings of the
source. -/
def spaces (n : Nat) : String := ⟨List.replicate n ' '⟩

/-- Sign characters of a float exponent as Python str prints it. -/
def isExpSign (c : Char) : Bool := c = '+' || c = '-'

/-- The optional exponent part of the canonical repr of a finite
float: absent, or the letter e, a mandatory sign and a nonempty digit
run, as in 1e+16 and 1.5e-05. -/
inductive ExpTok : List Char → Prop where
  | absent : ExpTok []
  | signed (s : Char) (es : List Char) :
      isExpSign s = true → es ≠ [] → (∀ c ∈ es, c.isDigit = true) →
      ExpTok ('e' :: (s :: es))

/-- The shape of the canonical repr of a finite float: an optional
minus sign, a nonempty digit run, then a fractional part with an
optional exponent, or a bare mandatory exponent — so the text is never
an integer literal and never the text of a non-finite float. -/
inductive FloatTok : List Char → Prop where
  | frac (sgn ds ds2 e : List Char) :
      (sgn = [] ∨ sgn = ['-']) →
      ds ≠ [] → (∀ c ∈ ds, c.isDigit = true) →
      ds2 ≠ [] → (∀ c ∈ ds2, c.isDigit = true) →
      ExpTok e →
      FloatTok (sgn ++ (ds ++ ('.' :: (ds2 ++ e))))
  | exp (sgn ds : List Char) (s : Char) (es : List Char) :
      (sgn = [] ∨ sgn = ['-']) →
      ds ≠ [] → (∀ c ∈ ds, c.isDigit = true) →
      isExpSign s = true → es ≠ [] → (∀ c ∈ es, c.isDigit = true) →
      FloatTok (sgn ++ (ds ++ ('e' :: (s :: es))))

/-- Embedding of to_hcl_value from scripts/yaml-to-tfvars.py: convert a
Python value to HCL text.  None becomes the empty string literal,
booleans the bare words true and false, integers their decimal text,
strings are quoted with backslash and quote escaped, lists are a
single-line bracketed comma-space join, dicts a multi-line brace block
indented two spaces beyond the caller.  The catch-all quoted-string
fallback of the source is unreachable over this value universe. -/
def to_hcl_value : YVal → Nat → String
  | .null, _ => "\"\""
  | .bool b, _ => if b then "true" else "false"
  | .int n, _ => intStr n
  | .float m, _ => m
  | .str s, _ => "\"" ++ pyEscape s ++ "\""
  | .list xs, indent =>
      if xs.isEmpty then "[]"
      else "[" ++ joinSep ", " (xs.attach.map (fun x => to_hcl_value x.1 (indent + 2))) ++ "]"
  | .dict kvs, indent =>
      if kvs.isEmpty then "\x7b\x7d"
      else "\x7b\n" ++
        joinSep "\n" (kvs.attach.map
          (fun kv => spaces (indent + 2) ++ kv.1.1 ++ " = " ++ to_hcl_value kv.1.2 (indent + 2))) ++
        "\n" ++ spaces indent ++ "\x7d"
termination_by v _ => sizeOf v
decreasing_by
  · have := List.sizeOf_lt_of_mem x.2
    simp only [YVal.list.sizeOf_spec]
    omega
  · have h1 := List.sizeOf_lt_of_mem kv.2
    have h2 : sizeOf kv.1.2 < sizeOf kv.1 := by
      obtain ⟨⟨a, b⟩, hmem⟩ := kv
      simp only [Prod.mk.sizeOf_spec]
      omega
    simp only [YVal.dict.sizeOf_spec]
    omega

theorem to_hcl_value_list (xs : List YVal) (indent : Nat) :
    to_hcl_value (.list xs) indent =
      if xs.isEmpty then "[]"
      else "[" ++ joinSep ", " (xs.map (fun x => to_hcl_value x (indent + 2))) ++ "]" := by
  rw [to_hcl_value.eq_def]
  dsimp only
  rw [List.attach_map_val xs (fun x => to_hcl_value x (indent + 2))]

theorem to_hcl_value_dict (kvs : List (String × YVal)) (indent : Nat) :
    to_hcl_value (.dict kvs) indent =
      if kvs.isEmpty then "\x7b\x7d"
      else "\x7b\n" ++
        joinSep "\n" (kvs.map
          (fun kv => spaces (indent + 2) ++ kv.1 ++ " = " ++ to_hcl_value kv.2 (indent + 2))) ++
        "\n" ++ spaces indent ++ "\x7d" := by
  rw [to_hcl_value.eq_def]
  dsimp only
  rw [List.attach_map_val kvs (fun kv => spaces (indent + 2) ++ kv.1 ++ " = " ++ to_hcl_value kv.2 (indent + 2))]

/-! ## The driver yaml_to_tfvars

The driver builds a list of output lines: a fixed header, then for each
recognized group a run of assignment lines followed by one empty
string.  A group key that is present but whose value is not a mapping
makes the Python attribute lookup .get fail; this is modelled by the
Except monad.  The tags group is emitted on mere presence, with no
mapping requirement and no truthiness gate. -/

/-- One assignment line of the output: identifier, equals sign, and the
serialized value at top-level indent. -/
def kvLine (name : String) (v : YVal) : String :=
  name ++ " = " ++ to_hcl_value v 0

/-- A field emitted when its value is truthy, embedding the pattern
if group.get(field): lines.append(...) of the source. -/
def truthyLine (d : List (String × YVal)) (inName outName : String) : List String :=
  if truthy (vget d inName) then [kvLine outName (vget d inName)] else []

/-- A field emitted when its key is present, embedding the pattern
if field in group: lines.append(...) of the source. -/
def presenceLine (d : List (String × YVal)) (inName outName : String) : List String :=
  if hasKey d inName then [kvLine outName (vget d inName)] else []

/-- The azure section body, lines 73 to 84 of the source. -/
def azureSection (az : List (String × YVal)) : List String :=
  truthyLine az "location" "location" ++
  truthyLine az "resource_group" "resource_group_name" ++
  truthyLine az "vm_size" "vm_size" ++
  presenceLine az "use_static_ip" "use_static_ip" ++
  truthyLine az "availability_zones" "availability_zones"

/-- The ssh section body, lines 88 to 97 of the source. -/
def sshSection (sh : List (String × YVal)) : List String :=
  truthyLine sh "admin_username" "admin_username" ++
  truthyLine sh "public_key_path" "ssh_public_key_path" ++
  truthyLine sh "allowed_ipv4" "allowed_ssh_ipv4" ++
  presenceLine sh "allowed_ipv6" "allowed_ssh_ipv6"

/-- The network section body, lines 101 to 106 of the source. -/
def networkSection (nw : List (String × YVal)) : List String :=
  truthyLine nw "vnet_address_space" "vnet_address_space" ++
  truthyLine nw "subnet_address" "subnet_address"

/-- The wireguard section body, lines 110 to 113 of the source. -/
def wireguardSection (wg : List (String × YVal)) : List String :=
  truthyLine wg "port" "wireguard_port"

/-- The fixed five comment lines of the header. -/
def headerComments : List String :=
  ["# Auto-generated from config.yml",
   "# Do not edit directly - modify config.yml instead",
   "#",
   "# Only infrastructure variables are included here.",
   "# Application config (WireGuard, Caddy, etc.) is handled by Ansible."]

/-- The header as first emitted: five comment lines and one empty
string, lines 63 to 70 of the source. -/
def header : List String := headerComments ++ [""]

/-- One recognized group: skipped when absent, rendered and followed by
one blank line when present and a mapping, and a raised attribute error
when present but not a mapping (the source calls .get on it). -/
def groupSection (config : List (String × YVal)) (name : String)
    (render : List (String × YVal) → List String) : Except String (List String) :=
  match dget config name with
  | none => .ok []
  | some (.dict d) => .ok (render d ++ [""])
  | some _ => .error "AttributeError: value has no attribute get"

/-- The tags lines, lines 117 to 119 of the source: emitted whenever the
key tags is present, whatever its value, followed by one blank line. -/
def tagsSection (config : List (String × YVal)) : List String :=
  match dget config "tags" with
  | none => []
  | some v => [kvLine "tags" v, ""]

/-- The full list of output lines assembled by yaml_to_tfvars before the
final newline join, in source order: header, azure, ssh, network,
wireguard, tags. -/
def tfvarsLines (config : List (String × YVal)) : Except String (List String) := do
  let a ← groupSection config "azure" azureSection
  let s ← groupSection config "ssh" sshSection
  let n ← groupSection config "network" networkSection
  let w ← groupSection config "wireguard" wireguardSection
  return header ++ a ++ s ++ n ++ w ++ tagsSection config

/-- Embedding of yaml_to_tfvars from the source: the assembled lines
joined with newlines. -/
def yaml_to_tfvars (config : List (String × YVal)) : Except String String :=
  (tfvarsLines config).map (joinSep "\n")

/-! ## The validator validate_config -/

/-- The problem string for a required field that is unset or still a
placeholder, line 136 of the source. -/
def notSetMsg (path : String) : String :=
  "  - " ++ path ++ ": not set or still CHANGEME"

/-- Python equality of a value against a string literal: true exactly
for the equal string value (no other value equals a string). -/
def isStrVal (v : YVal) (s : String) : Bool :=
  match v with
  | .str t => t = s
  | _ => false

/-- The disallowed common default usernames of line 140. -/
def commonNames : List String :=
  ["admin", "root", "azureuser", "ubuntu", "administrator"]

/-- Python str.endswith, at the character-list level. -/
def pyEndsWith (s suffix : String) : Bool :=
  suffix.data.isSuffixOf s.data

/-- The not-set-or-placeholder test of line 135 of the source:
falsy, or equal to CHANGEME, or equal to CHANGEME/32. -/
def notSet (v : YVal) : Bool :=
  !truthy v || isStrVal v "CHANGEME" || isStrVal v "CHANGEME/32"

/-- The required-field problems of lines 129 to 136, in order. -/
def requiredProblems (adminU ipv4 : YVal) : List String :=
  (if notSet adminU then [notSetMsg "ssh.admin_username"] else []) ++
  (if notSet ipv4 then [notSetMsg "ssh.allowed_ipv4"] else [])

/-- The problems gathered before the suffix rule: the two
required-field checks of lines 129 to 136 and the common-default-name
check of lines 140 to 141, in order. -/
def baseProblems (ssh : List (String × YVal)) : List String :=
  requiredProblems (vget ssh "admin_username") (vget ssh "allowed_ipv4") ++
  (if commonNames.any (fun n => isStrVal (vget ssh "admin_username") n)
   then ["  - ssh.admin_username: cannot be a common default name"] else [])

/-- The body of validate_config once the ssh group mapping is in hand.
The suffix check on ssh.allowed_ipv4 calls .endswith on the value,
which raises when the value is truthy but not a string. -/
def validate_ssh (ssh : List (String × YVal)) : Except String (List String) :=
  if truthy (vget ssh "allowed_ipv4") then
    match vget ssh "allowed_ipv4" with
    | .str s =>
        .ok (baseProblems ssh ++
          (if !(pyEndsWith s "/32")
           then ["  - ssh.allowed_ipv4: must end with /32"] else []))
    | _ => .error "AttributeError: value has no attribute endswith"
  else .ok (baseProblems ssh)

/-- Embedding of validate_config from the source.  The ssh group is
looked up with an empty-mapping default; a present non-mapping ssh value
makes the .get attribute lookup raise. -/
def validate_config (config : List (String × YVal)) : Except String (List String) :=
  match (dget config "ssh").getD (.dict []) with
  | .dict ssh => validate_ssh ssh
  | _ => .error "AttributeError: value has no attribute get"

/-! ## The CLI driver main -/

/-- The outcome of reading and parsing the input file: not found, a
parse error, or a parsed document (any value). -/
inductive LoadResult where
  | notFound : LoadResult
  | parseError : LoadResult
  | ok (doc : YVal) : LoadResult

/-- Observable outcome of one driver invocation: process exit code,
standard output lines, and the converted text written to stdout or to
the named output file (none when no conversion was produced). -/
structure MainOut where
  exitCode : Nat
  stdout : List String
  converted : Option String

/-- validate_config as called by main, on the raw parsed document: the
document itself must support .get, so a non-mapping document raises. -/
def validate_doc : YVal → Except String (List String)
  | .dict config => validate_config config
  | _ => .error "AttributeError: document has no attribute get"

/-- yaml_to_tfvars as called by main, on the raw parsed document: the
membership tests hold for mappings only; Python raises a TypeError on
anything that is not a container, and the claims are settled on mapping
documents, so a non-mapping document is modelled as a raised error. -/
def tfvars_doc : YVal → Except String String
  | .dict config => yaml_to_tfvars config
  | _ => .error "TypeError: argument of type is not iterable"

/-- Embedding of main from lines 149 to 191 of the source (named
mainDriver because the name main is reserved in Lean): load the file,
validate, and convert unless validate-only mode stops first.  An
uncaught Python exception terminates the process with exit code 1. -/
def mainDriver (load : LoadResult) (validateOnly : Bool) (outputFile : Bool) : MainOut :=
  match load with
  | .notFound => ⟨1, [], none⟩
  | .parseError => ⟨1, [], none⟩
  | .ok doc =>
    match validate_doc doc with
    | .error _ => ⟨1, [], none⟩
    | .ok errors =>
      if !errors.isEmpty && validateOnly then ⟨1, [], none⟩
      else if errors.isEmpty && validateOnly then ⟨0, ["Configuration is valid."], none⟩
      else
        match tfvars_doc doc with
        | .error _ => ⟨1, [], none⟩
        | .ok tfvars =>
          if outputFile then ⟨0, [], some tfvars⟩
          else ⟨0, [tfvars], some tfvars⟩

/-! ## Claim C5: string serialization and escaping -/

theorem replaceChar_append (a b : List Char) (old : Char) (new : List Char) :
    replaceChar (a ++ b) old new = replaceChar a old new ++ replaceChar b old new := by
  induction a with
  | nil => rfl
  | cons c cs ih => simp [replaceChar, ih]

/-- The escaping described by the claim, as a single pass: every
backslash becomes backslash backslash, every double quote becomes
backslash quote, and every other character stays unchanged.  This
definition follows the wording of the specification and is compared
with the sequential-replace implementation pyEscape. -/
def escapeSpec : List Char → List Char
  | [] => []
  | c :: cs =>
      (if c = '\\' then ['\\', '\\']
       else if c = '"' then ['\\', '"']
       else [c]) ++ escapeSpec cs

theorem pyEscape_eq_escapeSpec (s : String) : pyEscape s = ⟨escapeSpec s.data⟩ := by
  unfold pyEscape
  congr 1
  induction s.data with
  | nil => rfl
  | cons c cs ih =>
    by_cases hb : c = '\\'
    · subst hb
      simp [replaceChar, escapeSpec, replaceChar_append, ih]
    · by_cases hq : c = '"'
      · subst hq
        simp [replaceChar, escapeSpec, ih]
      · simp [replaceChar, escapeSpec, hb, hq, ih]

/-- C5: for every string s, to_hcl_value of s is a double quote,
followed by s with every backslash replaced by backslash backslash and
every double quote replaced by backslash quote (every other character
unchanged, nothing else escaped), followed by a closing double quote. -/
theorem c5_string_escaping (s : String) (indent : Nat) :
    to_hcl_value (.str s) indent = "\"" ++ String.mk (escapeSpec s.data) ++ "\"" := by
  rw [to_hcl_value.eq_def]
  dsimp only
  rw [pyEscape_eq_escapeSpec]

/-! ## Claims C2 and C3: the validator -/

/-- The shape under which validate_config cannot raise: the ssh group,
when present, is a mapping, and ssh.allowed_ipv4 is a string whenever it
is truthy. -/
def sshShapeOk (config : List (String × YVal)) : Prop :=
  ∀ v, dget config "ssh" = some v →
    ∃ ssh, v = .dict ssh ∧
      (truthy (vget ssh "allowed_ipv4") → ∃ s, vget ssh "allowed_ipv4" = .str s)

/-- C2 counterexample: on the document with ssh.allowed_ipv4 equal to
the integer 5, validate_config raises an attribute error (the source
calls .endswith on the value), instead of returning a list of
problems. -/
theorem c2_counterexample :
    validate_config [("ssh", .dict [("allowed_ipv4", .int 5)])] =
      .error "AttributeError: value has no attribute endswith" := by
  rfl

/-- C2 (amended): validate_config returns an ordered list of problem
strings, and never raises, for every document whose ssh group is absent
(the empty-mapping fallback) or is a mapping whose allowed_ipv4 value,
whenever truthy, is a string.  On a truthy non-string allowed_ipv4, or
a present non-mapping ssh group, the validator raises instead. -/
theorem c2_validator_total (config : List (String × YVal)) (h : sshShapeOk config) :
    ∃ errs, validate_config config = .ok errs := by
  unfold validate_config
  cases hd : dget config "ssh" with
  | none =>
    simp [Option.getD, validate_ssh, vget, dget, truthy]
  | some v =>
    obtain ⟨ssh, rfl, hstr⟩ := h v hd
    simp only [Option.getD]
    unfold validate_ssh
    by_cases ht : truthy (vget ssh "allowed_ipv4")
    · obtain ⟨s, hs⟩ := hstr ht
      rw [hs] at ht ⊢
      simp [ht]
    · simp [ht]

/-- C2 witness configuration. -/
theorem c2_witness :
    sshShapeOk [("ssh", .dict [("allowed_ipv4", .str "1.2.3.4/32")])] ∧
    ∃ errs, validate_config [("ssh", .dict [("allowed_ipv4", .str "1.2.3.4/32")])] = .ok errs := by
  have hshape : sshShapeOk [("ssh", .dict [("allowed_ipv4", .str "1.2.3.4/32")])] := by
    intro v hv
    simp [dget] at hv
    exact ⟨_, hv.symm, fun _ => ⟨"1.2.3.4/32", rfl⟩⟩
  exact ⟨hshape, c2_validator_total _ hshape⟩

/-- C3 counterexample: with ssh.admin_username present and equal to
CHANGEME/32 (not CHANGEME, not absent), the validator still reports the
not-set-or-placeholder problem mentioning ssh.admin_username, so the
only-if direction of the claim fails. -/
theorem c3_counterexample :
    validate_config
        [("ssh", .dict [("admin_username", .str "CHANGEME/32"),
                        ("allowed_ipv4", .str "1.2.3.4/32")])] =
      .ok ["  - ssh.admin_username: not set or still CHANGEME"] ∧
    vget [("admin_username", .str "CHANGEME/32"), ("allowed_ipv4", .str "1.2.3.4/32")]
        "admin_username" = .str "CHANGEME/32" ∧
    (YVal.str "CHANGEME/32" ≠ .str "CHANGEME") := by
  refine ⟨by rfl, by rfl, by simp⟩

theorem adminMsg_mem_baseProblems (ssh : List (String × YVal)) (tail : List String)
    (htail : notSetMsg "ssh.admin_username" ∉ tail) :
    (notSetMsg "ssh.admin_username" ∈ baseProblems ssh ++ tail ↔
      notSet (vget ssh "admin_username")) := by
  have d1 : notSetMsg "ssh.admin_username" ≠ notSetMsg "ssh.allowed_ipv4" := by decide
  have d2 : notSetMsg "ssh.admin_username" ≠
      "  - ssh.admin_username: cannot be a common default name" := by decide
  by_cases h1 : notSet (vget ssh "admin_username") <;>
    by_cases h2 : notSet (vget ssh "allowed_ipv4") <;>
    by_cases h3 : commonNames.any (fun n => isStrVal (vget ssh "admin_username") n) <;>
    simp [baseProblems, requiredProblems, h1, h2, h3, d1, d2, htail]

/-- C3 (amended): for every document whose ssh group, when present, is
a mapping, and on which the validator returns (rather than raises), the
problem list contains the not-set-or-placeholder problem mentioning
ssh.admin_username if and only if ssh.admin_username is absent, falsy,
or equal to the literal CHANGEME or CHANGEME/32.  In particular a
document with admin_username CHANGEME is reported. -/
theorem c3_admin_placeholder (config : List (String × YVal))
    (ssh : List (String × YVal)) (errs : List String)
    (hs : (dget config "ssh").getD (.dict []) = .dict ssh)
    (hv : validate_config config = .ok errs) :
    (notSetMsg "ssh.admin_username" ∈ errs ↔
      (truthy (vget ssh "admin_username") = false ∨
        vget ssh "admin_username" = .str "CHANGEME" ∨
        vget ssh "admin_username" = .str "CHANGEME/32")) := by
  unfold validate_config at hv
  rw [hs] at hv
  dsimp only at hv
  have hns : (notSet (vget ssh "admin_username") = true) ↔
      (truthy (vget ssh "admin_username") = false ∨
        vget ssh "admin_username" = .str "CHANGEME" ∨
        vget ssh "admin_username" = .str "CHANGEME/32") := by
    unfold notSet isStrVal
    cases hval : vget ssh "admin_username" with
    | str t => simp [YVal.str.injEq]; tauto
    | _ => simp [truthy] <;> tauto
  rw [← hns]
  have d3 : notSetMsg "ssh.admin_username" ≠ "  - ssh.allowed_ipv4: must end with /32" := by
    decide
  unfold validate_ssh at hv
  by_cases ht : truthy (vget ssh "allowed_ipv4")
  · rw [if_pos ht] at hv
    cases hip : vget ssh "allowed_ipv4" with
    | str t =>
      rw [hip] at hv
      dsimp only at hv
      rw [Except.ok.injEq] at hv
      subst hv
      rw [adminMsg_mem_baseProblems]
      intro hmem
      by_cases h32 : pyEndsWith t "/32" <;> simp [h32, d3] at hmem
    | null => rw [hip] at ht; simp [truthy] at ht
    | bool b => rw [hip] at hv; simp at hv
    | int n => rw [hip] at hv; simp at hv
    | float m => rw [hip] at hv; simp at hv
    | list xs => rw [hip] at hv; simp at hv
    | dict kvs => rw [hip] at hv; simp at hv
  · rw [if_neg ht] at hv
    rw [Except.ok.injEq] at hv
    subst hv
    rw [← List.append_nil (baseProblems ssh)]
    exact adminMsg_mem_baseProblems ssh [] (by simp)

/-- C3 witness: on the document with ssh.admin_username CHANGEME the
validator reports the not-set-or-placeholder problem. -/
theorem c3_witness :
    notSetMsg "ssh.admin_username" ∈
      ["  - ssh.admin_username: not set or still CHANGEME",
       "  - ssh.allowed_ipv4: not set or still CHANGEME"] := by
  have h := c3_admin_placeholder
    [("ssh", .dict [("admin_username", .str "CHANGEME")])]
    [("admin_username", .str "CHANGEME")]
    ["  - ssh.admin_username: not set or still CHANGEME",
     "  - ssh.allowed_ipv4: not set or still CHANGEME"]
    (by rfl) (by rfl)
  exact h.mpr (Or.inr (Or.inl rfl))

/-! ## Claim C4: the whitelist invariant of the driver -/

/-- The truthiness-gated whitelisted fields as triples of group name,
input field name and emitted identifier, in source order. -/
def truthyFields : List (String × String × String) :=
  [("azure", "location", "location"),
   ("azure", "resource_group", "resource_group_name"),
   ("azure", "vm_size", "vm_size"),
   ("azure", "availability_zones", "availability_zones"),
   ("ssh", "admin_username", "admin_username"),
   ("ssh", "public_key_path", "ssh_public_key_path"),
   ("ssh", "allowed_ipv4", "allowed_ssh_ipv4"),
   ("network", "vnet_address_space", "vnet_address_space"),
   ("network", "subnet_address", "subnet_address"),
   ("wireguard", "port", "wireguard_port")]

/-- The presence-gated whitelisted fields inside groups. -/
def presenceFields : List (String × String × String) :=
  [("azure", "use_static_ip", "use_static_ip"),
   ("ssh", "allowed_ipv6", "allowed_ssh_ipv6")]

/-- Where an output line can come from: a header comment, a blank
separator, a truthiness-gated whitelisted field, a presence-gated
whitelisted field, or the tags group. -/
def lineOrigin (config : List (String × YVal)) (line : String) : Prop :=
  line ∈ headerComments ∨ line = "" ∨
  (∃ g f o d, (g, f, o) ∈ truthyFields ∧ dget config g = some (.dict d) ∧
     truthy (vget d f) ∧ line = kvLine o (vget d f)) ∨
  (∃ g f o d, (g, f, o) ∈ presenceFields ∧ dget config g = some (.dict d) ∧
     hasKey d f ∧ line = kvLine o (vget d f)) ∨
  (∃ v, dget config "tags" = some v ∧ line = kvLine "tags" v)

theorem groupSection_ok (config : List (String × YVal)) (name : String)
    (render : List (String × YVal) → List String) (l : List String)
    (h : groupSection config name render = .ok l) :
    (dget config name = none ∧ l = []) ∨
    (∃ d, dget config name = some (.dict d) ∧ l = render d ++ [""]) := by
  unfold groupSection at h
  cases hd : dget config name with
  | none => rw [hd] at h; simp at h; exact Or.inl ⟨rfl, h⟩
  | some v =>
    rw [hd] at h
    cases v with
    | dict d => simp at h; exact Or.inr ⟨d, rfl, h.symm⟩
    | null => simp at h
    | bool b => simp at h
    | int n => simp at h
    | float m => simp at h
    | str t => simp at h
    | list xs => simp at h

theorem tfvarsLines_shape (config : List (String × YVal)) (ls : List String)
    (h : tfvarsLines config = .ok ls) :
    ∃ a s n w,
      groupSection config "azure" azureSection = .ok a ∧
      groupSection config "ssh" sshSection = .ok s ∧
      groupSection config "network" networkSection = .ok n ∧
      groupSection config "wireguard" wireguardSection = .ok w ∧
      ls = header ++ a ++ s ++ n ++ w ++ tagsSection config := by
  unfold tfvarsLines at h
  cases ha : groupSection config "azure" azureSection with
  | error e => rw [ha] at h; simp [Bind.bind, Except.bind] at h
  | ok a =>
    rw [ha] at h
    cases hs : groupSection config "ssh" sshSection with
    | error e => rw [hs] at h; simp [Bind.bind, Except.bind] at h
    | ok s =>
      rw [hs] at h
      cases hn : groupSection config "network" networkSection with
      | error e => rw [hn] at h; simp [Bind.bind, Except.bind] at h
      | ok n =>
        rw [hn] at h
        cases hw : groupSection config "wireguard" wireguardSection with
        | error e => rw [hw] at h; simp [Bind.bind, Except.bind] at h
        | ok w =>
          rw [hw] at h
          simp [Bind.bind, Except.bind, Pure.pure, Except.pure] at h
          exact ⟨a, s, n, w, rfl, rfl, rfl, rfl, by simp [h.symm, List.append_assoc]⟩

theorem mem_truthyLine (d : List (String × YVal)) (a b : String) (x : String)
    (h : x ∈ truthyLine d a b) : truthy (vget d a) ∧ x = kvLine b (vget d a) := by
  unfold truthyLine at h
  by_cases ht : truthy (vget d a)
  · rw [if_pos ht] at h; simp at h; exact ⟨ht, h⟩
  · rw [if_neg ht] at h; simp at h

theorem mem_presenceLine (d : List (String × YVal)) (a b : String) (x : String)
    (h : x ∈ presenceLine d a b) : hasKey d a ∧ x = kvLine b (vget d a) := by
  unfold presenceLine at h
  by_cases ht : hasKey d a
  · rw [if_pos ht] at h; simp at h; exact ⟨ht, h⟩
  · rw [if_neg ht] at h; simp at h

theorem mem_azureSection (config : List (String × YVal)) (d : List (String × YVal))
    (x : String) (hd : dget config "azure" = some (.dict d)) (h : x ∈ azureSection d) :
    lineOrigin config x := by
  unfold azureSection at h
  simp only [List.mem_append] at h
  rcases h with ((((h | h) | h) | h) | h)
  · obtain ⟨ht, rfl⟩ := mem_truthyLine _ _ _ _ h
    exact Or.inr (Or.inr (Or.inl ⟨"azure", "location", "location", d, by simp [truthyFields], hd, ht, rfl⟩))
  · obtain ⟨ht, rfl⟩ := mem_truthyLine _ _ _ _ h
    exact Or.inr (Or.inr (Or.inl ⟨"azure", "resource_group", "resource_group_name", d, by simp [truthyFields], hd, ht, rfl⟩))
  · obtain ⟨ht, rfl⟩ := mem_truthyLine _ _ _ _ h
    exact Or.inr (Or.inr (Or.inl ⟨"azure", "vm_size", "vm_size", d, by simp [truthyFields], hd, ht, rfl⟩))
  · obtain ⟨ht, rfl⟩ := mem_presenceLine _ _ _ _ h
    exact Or.inr (Or.inr (Or.inr (Or.inl ⟨"azure", "use_static_ip", "use_static_ip", d, by simp [presenceFields], hd, ht, rfl⟩)))
  · obtain ⟨ht, rfl⟩ := mem_truthyLine _ _ _ _ h
    exact Or.inr (Or.inr (Or.inl ⟨"azure", "availability_zones", "availability_zones", d, by simp [truthyFields], hd, ht, rfl⟩))

theorem mem_sshSection (config : List (String × YVal)) (d : List (String × YVal))
    (x : String) (hd : dget config "ssh" = some (.dict d)) (h : x ∈ sshSection d) :
    lineOrigin config x := by
  unfold sshSection at h
  simp only [List.mem_append] at h
  rcases h with (((h | h) | h) | h)
  · obtain ⟨ht, rfl⟩ := mem_truthyLine _ _ _ _ h
    exact Or.inr (Or.inr (Or.inl ⟨"ssh", "admin_username", "admin_username", d, by simp [truthyFields], hd, ht, rfl⟩))
  · obtain ⟨ht, rfl⟩ := mem_truthyLine _ _ _ _ h
    exact Or.inr (Or.inr (Or.inl ⟨"ssh", "public_key_path", "ssh_public_key_path", d, by simp [truthyFields], hd, ht, rfl⟩))
  · obtain ⟨ht, rfl⟩ := mem_truthyLine _ _ _ _ h
    exact Or.inr (Or.inr (Or.inl ⟨"ssh", "allowed_ipv4", "allowed_ssh_ipv4", d, by simp [truthyFields], hd, ht, rfl⟩))
  · obtain ⟨ht, rfl⟩ := mem_presenceLine _ _ _ _ h
    exact Or.inr (Or.inr (Or.inr (Or.inl ⟨"ssh", "allowed_ipv6", "allowed_ssh_ipv6", d, by simp [presenceFields], hd, ht, rfl⟩)))

theorem mem_networkSection (config : List (String × YVal)) (d : List (String × YVal))
    (x : String) (hd : dget config "network" = some (.dict d)) (h : x ∈ networkSection d) :
    lineOrigin config x := by
  unfold networkSection at h
  simp only [List.mem_append] at h
  rcases h with (h | h)
  · obtain ⟨ht, rfl⟩ := mem_truthyLine _ _ _ _ h
    exact Or.inr (Or.inr (Or.inl ⟨"network", "vnet_address_space", "vnet_address_space", d, by simp [truthyFields], hd, ht, rfl⟩))
  · obtain ⟨ht, rfl⟩ := mem_truthyLine _ _ _ _ h
    exact Or.inr (Or.inr (Or.inl ⟨"network", "subnet_address", "subnet_address", d, by simp [truthyFields], hd, ht, rfl⟩))

theorem mem_wireguardSection (config : List (String × YVal)) (d : List (String × YVal))
    (x : String) (hd : dget config "wireguard" = some (.dict d)) (h : x ∈ wireguardSection d) :
    lineOrigin config x := by
  unfold wireguardSection at h
  obtain ⟨ht, rfl⟩ := mem_truthyLine _ _ _ _ h
  exact Or.inr (Or.inr (Or.inl ⟨"wireguard", "port", "wireguard_port", d, by simp [truthyFields], hd, ht, rfl⟩))

/-- Every line of the assembled output has a whitelisted origin. -/
theorem mem_tfvarsLines (config : List (String × YVal)) (ls : List String)
    (h : tfvarsLines config = .ok ls) (line : String) (hm : line ∈ ls) :
    lineOrigin config line := by
  obtain ⟨a, s, n, w, ha, hs, hn, hw, rfl⟩ := tfvarsLines_shape config ls h
  simp only [header, List.append_assoc, List.mem_append] at hm
  rcases hm with (hm | hm | hm | hm | hm | hm | hm)
  · exact Or.inl hm
  · simp at hm; exact Or.inr (Or.inl hm)
  · rcases groupSection_ok _ _ _ _ ha with ⟨_, rfl⟩ | ⟨d, hd, rfl⟩
    · simp at hm
    · rcases List.mem_append.mp hm with hm | hm
      · exact mem_azureSection config d line hd hm
      · simp at hm; exact Or.inr (Or.inl hm)
  · rcases groupSection_ok _ _ _ _ hs with ⟨_, rfl⟩ | ⟨d, hd, rfl⟩
    · simp at hm
    · rcases List.mem_append.mp hm with hm | hm
      · exact mem_sshSection config d line hd hm
      · simp at hm; exact Or.inr (Or.inl hm)
  · rcases groupSection_ok _ _ _ _ hn with ⟨_, rfl⟩ | ⟨d, hd, rfl⟩
    · simp at hm
    · rcases List.mem_append.mp hm with hm | hm
      · exact mem_networkSection config d line hd hm
      · simp at hm; exact Or.inr (Or.inl hm)
  · rcases groupSection_ok _ _ _ _ hw with ⟨_, rfl⟩ | ⟨d, hd, rfl⟩
    · simp at hm
    · rcases List.mem_append.mp hm with hm | hm
      · exact mem_wireguardSection config d line hd hm
      · simp at hm; exact Or.inr (Or.inl hm)
  · unfold tagsSection at hm
    cases hd : dget config "tags" with
    | none => rw [hd] at hm; simp at hm
    | some v =>
      rw [hd] at hm
      simp at hm
      rcases hm with rfl | rfl
      · exact Or.inr (Or.inr (Or.inr (Or.inr ⟨v, hd, rfl⟩)))
      · exact Or.inr (Or.inl rfl)

/-- C4: every line the driver emits is a header comment, a blank
separator, or an assignment produced from one of the whitelisted input
fields (azure.location, azure.resource_group, azure.vm_size,
azure.use_static_ip, azure.availability_zones, ssh.admin_username,
ssh.public_key_path, ssh.allowed_ipv4, ssh.allowed_ipv6,
network.vnet_address_space, network.subnet_address, wireguard.port,
tags); no other input field is ever surfaced. -/
theorem c4_whitelist_invariant (config : List (String × YVal)) (ls : List String)
    (h : tfvarsLines config = .ok ls) :
    ∀ line ∈ ls, lineOrigin config line :=
  fun line hm => mem_tfvarsLines config ls h line hm

/-! ## Identifier machinery: kvLine is determined by its identifier -/

theorem kvLine_data (nm : String) (v : YVal) :
    (kvLine nm v).data = nm.data ++ ' ' :: '=' :: ' ' :: (to_hcl_value v 0).data := by
  simp [kvLine, String.data_append]

theorem append_space_inj (a : List Char) :
    ∀ (b r₁ r₂ : List Char), ' ' ∉ a → ' ' ∉ b →
      a ++ ' ' :: r₁ = b ++ ' ' :: r₂ → a = b ∧ r₁ = r₂ := by
  induction a with
  | nil =>
    intro b r₁ r₂ _ hb h
    cases b with
    | nil => simpa using h
    | cons d ds =>
      simp only [List.nil_append, List.cons_append, List.cons.injEq] at h
      exact (hb (by rw [← h.1]; exact List.mem_cons_self ' ' ds)).elim
  | cons c cs ih =>
    intro b r₁ r₂ ha hb h
    cases b with
    | nil =>
      simp only [List.cons_append, List.nil_append, List.cons.injEq] at h
      exact (ha (by rw [h.1]; exact List.mem_cons_self ' ' cs)).elim
    | cons d ds =>
      simp only [List.cons_append, List.cons.injEq] at h
      obtain ⟨rfl, h2⟩ := h
      have := ih ds r₁ r₂ (fun hx => ha (List.mem_cons_of_mem _ hx)) (fun hx => hb (List.mem_cons_of_mem _ hx)) h2
      exact ⟨by rw [this.1], this.2⟩

theorem kvLine_inj (nm nm' : String) (v v' : YVal)
    (hsp : ' ' ∉ nm.data) (hsp' : ' ' ∉ nm'.data)
    (h : kvLine nm v = kvLine nm' v') : nm = nm' := by
  have hd := congrArg String.data h
  rw [kvLine_data, kvLine_data] at hd
  exact String.ext (append_space_inj nm.data nm'.data _ _ hsp hsp' hd).1

theorem kvLine_head (nm : String) (v : YVal) (c : Char) (cs : List Char)
    (hdata : nm.data = c :: cs) : (kvLine nm v).data.head? = some c := by
  rw [kvLine_data, hdata]
  rfl

theorem kvLine_not_mem_headerComments (nm : String) (v : YVal) (c : Char) (cs : List Char)
    (hdata : nm.data = c :: cs) (hc : c ≠ '#') : kvLine nm v ∉ headerComments := by
  intro hmem
  have hh := kvLine_head nm v c cs hdata
  simp only [headerComments, List.mem_cons, List.not_mem_nil, or_false] at hmem
  rcases hmem with h | h | h | h | h <;> rw [h] at hh <;>
    exact hc (Option.some.inj hh).symm

theorem kvLine_ne_empty (nm : String) (v : YVal) (c : Char) (cs : List Char)
    (hdata : nm.data = c :: cs) : kvLine nm v ≠ "" := by
  intro h
  have hd := congrArg String.data h
  rw [kvLine_data, hdata] at hd
  simp at hd

theorem truthyFields_names (g f o : String) (h : (g, f, o) ∈ truthyFields) :
    ' ' ∉ o.data := by
  fin_cases h <;> decide

theorem presenceFields_names (g f o : String) (h : (g, f, o) ∈ presenceFields) :
    ' ' ∉ o.data := by
  fin_cases h <;> decide

/-- Inversion of lineOrigin at an assignment line: the identifier of an
emitted assignment line pins down the whitelisted field (or tags) that
produced it, together with its gate. -/
theorem kvLine_origin (config : List (String × YVal)) (nm : String) (v : YVal)
    (hsp : ' ' ∉ nm.data) (c : Char) (cs : List Char)
    (hdata : nm.data = c :: cs) (hc : c ≠ '#')
    (ho : lineOrigin config (kvLine nm v)) :
    (∃ g f d, (g, f, nm) ∈ truthyFields ∧ dget config g = some (.dict d) ∧
       truthy (vget d f) ∧ kvLine nm v = kvLine nm (vget d f)) ∨
    (∃ g f d, (g, f, nm) ∈ presenceFields ∧ dget config g = some (.dict d) ∧
       hasKey d f ∧ kvLine nm v = kvLine nm (vget d f)) ∨
    (nm = "tags" ∧ ∃ tv, dget config "tags" = some tv ∧ kvLine nm v = kvLine "tags" tv) := by
  rcases ho with hh | hh | ⟨g, f, o, d, hw, hd, ht, he⟩ | ⟨g, f, o, d, hw, hd, ht, he⟩ | ⟨tv, htv, he⟩
  · exact absurd hh (kvLine_not_mem_headerComments nm v c cs hdata hc)
  · exact absurd hh (kvLine_ne_empty nm v c cs hdata)
  · have hnm := kvLine_inj nm o v (vget d f) hsp (truthyFields_names g f o hw) he
    subst hnm
    exact Or.inl ⟨g, f, d, hw, hd, ht, he⟩
  · have hnm := kvLine_inj nm o v (vget d f) hsp (presenceFields_names g f o hw) he
    subst hnm
    exact Or.inr (Or.inl ⟨g, f, d, hw, hd, ht, he⟩)
  · have hnm := kvLine_inj nm "tags" v tv hsp (by decide) he
    exact Or.inr (Or.inr ⟨hnm, tv, htv, he⟩)

/-! ## Positive membership: a present gated field is emitted -/

theorem azure_lines_sub (config : List (String × YVal)) (ls : List String)
    (h : tfvarsLines config = .ok ls) (d : List (String × YVal))
    (hd : dget config "azure" = some (.dict d)) (x : String)
    (hx : x ∈ azureSection d) : x ∈ ls := by
  obtain ⟨a, sc, n, w, ha, _, _, _, rfl⟩ := tfvarsLines_shape config ls h
  rcases groupSection_ok _ _ _ _ ha with ⟨h0, _⟩ | ⟨d', hd', rfl⟩
  · rw [h0] at hd; cases hd
  · rw [hd'] at hd
    have : d' = d := by simpa using hd
    subst this
    exact List.mem_append_left _ (List.mem_append_left _ (List.mem_append_left _
      (List.mem_append_left _ (List.mem_append_right header (List.mem_append_left _ hx)))))

theorem ssh_lines_sub (config : List (String × YVal)) (ls : List String)
    (h : tfvarsLines config = .ok ls) (d : List (String × YVal))
    (hd : dget config "ssh" = some (.dict d)) (x : String)
    (hx : x ∈ sshSection d) : x ∈ ls := by
  obtain ⟨a, sc, n, w, _, hs, _, _, rfl⟩ := tfvarsLines_shape config ls h
  rcases groupSection_ok _ _ _ _ hs with ⟨h0, _⟩ | ⟨d', hd', rfl⟩
  · rw [h0] at hd; cases hd
  · rw [hd'] at hd
    have : d' = d := by simpa using hd
    subst this
    exact List.mem_append_left _ (List.mem_append_left _ (List.mem_append_left _
      (List.mem_append_right _ (List.mem_append_left _ hx))))

theorem network_lines_sub (config : List (String × YVal)) (ls : List String)
    (h : tfvarsLines config = .ok ls) (d : List (String × YVal))
    (hd : dget config "network" = some (.dict d)) (x : String)
    (hx : x ∈ networkSection d) : x ∈ ls := by
  obtain ⟨a, sc, n, w, _, _, hn, _, rfl⟩ := tfvarsLines_shape config ls h
  rcases groupSection_ok _ _ _ _ hn with ⟨h0, _⟩ | ⟨d', hd', rfl⟩
  · rw [h0] at hd; cases hd
  · rw [hd'] at hd
    have : d' = d := by simpa using hd
    subst this
    exact List.mem_append_left _ (List.mem_append_left _
      (List.mem_append_right _ (List.mem_append_left _ hx)))

theorem wireguard_lines_sub (config : List (String × YVal)) (ls : List String)
    (h : tfvarsLines config = .ok ls) (d : List (String × YVal))
    (hd : dget config "wireguard" = some (.dict d)) (x : String)
    (hx : x ∈ wireguardSection d) : x ∈ ls := by
  obtain ⟨a, sc, n, w, _, _, _, hw, rfl⟩ := tfvarsLines_shape config ls h
  rcases groupSection_ok _ _ _ _ hw with ⟨h0, _⟩ | ⟨d', hd', rfl⟩
  · rw [h0] at hd; cases hd
  · rw [hd'] at hd
    have : d' = d := by simpa using hd
    subst this
    exact List.mem_append_left _ (List.mem_append_right _ (List.mem_append_left _ hx))

theorem tags_line_mem (config : List (String × YVal)) (ls : List String)
    (h : tfvarsLines config = .ok ls) (v : YVal)
    (hv : dget config "tags" = some v) : kvLine "tags" v ∈ ls := by
  obtain ⟨a, sc, n, w, _, _, _, _, rfl⟩ := tfvarsLines_shape config ls h
  have hmem : kvLine "tags" v ∈ tagsSection config := by
    unfold tagsSection
    rw [hv]
    simp
  exact List.mem_append_right _ hmem

/-- C4 witness: on a concrete document holding a whitelisted field and
a junk field, the emitted assignment line has a whitelisted origin. -/
theorem c4_witness :
    lineOrigin [("azure", .dict [("location", .str "eastus"), ("junk", .str "x")])]
      "location = \"eastus\"" := by
  have h : tfvarsLines [("azure", .dict [("location", .str "eastus"), ("junk", .str "x")])] =
      .ok (header ++ ["location = \"eastus\"", ""]) := by
    simp [tfvarsLines, groupSection, dget, azureSection, sshSection, networkSection,
      wireguardSection, tagsSection, truthyLine, presenceLine, kvLine, vget, hasKey,
      truthy, Bind.bind, Except.bind, Pure.pure, Except.pure, to_hcl_value, pyEscape, replaceChar]
  exact c4_whitelist_invariant _ _ h _ (by simp [header, headerComments])

/-! ## Claim C9: emitted identifiers versus input field names -/

/-- C9: the identifier on an output line is not always the input field
name.  The five renamed fields are emitted under their mapped names
(resource_group to resource_group_name, public_key_path to
ssh_public_key_path, allowed_ipv4 to allowed_ssh_ipv4, allowed_ipv6 to
allowed_ssh_ipv6, port to wireguard_port) and never under their input
names; the remaining whitelisted fields keep their input names. -/
theorem c9_identifier_mapping (config : List (String × YVal)) (ls : List String)
    (h : tfvarsLines config = .ok ls) :
    (∀ d, dget config "azure" = some (.dict d) → truthy (vget d "resource_group") →
        kvLine "resource_group_name" (vget d "resource_group") ∈ ls) ∧
    (∀ d, dget config "ssh" = some (.dict d) → truthy (vget d "public_key_path") →
        kvLine "ssh_public_key_path" (vget d "public_key_path") ∈ ls) ∧
    (∀ d, dget config "ssh" = some (.dict d) → truthy (vget d "allowed_ipv4") →
        kvLine "allowed_ssh_ipv4" (vget d "allowed_ipv4") ∈ ls) ∧
    (∀ d, dget config "ssh" = some (.dict d) → hasKey d "allowed_ipv6" →
        kvLine "allowed_ssh_ipv6" (vget d "allowed_ipv6") ∈ ls) ∧
    (∀ d, dget config "wireguard" = some (.dict d) → truthy (vget d "port") →
        kvLine "wireguard_port" (vget d "port") ∈ ls) ∧
    (∀ v, kvLine "resource_group" v ∉ ls) ∧
    (∀ v, kvLine "public_key_path" v ∉ ls) ∧
    (∀ v, kvLine "allowed_ipv4" v ∉ ls) ∧
    (∀ v, kvLine "allowed_ipv6" v ∉ ls) ∧
    (∀ v, kvLine "port" v ∉ ls) ∧
    (∀ d, dget config "azure" = some (.dict d) → truthy (vget d "location") →
        kvLine "location" (vget d "location") ∈ ls) ∧
    (∀ d, dget config "azure" = some (.dict d) → truthy (vget d "vm_size") →
        kvLine "vm_size" (vget d "vm_size") ∈ ls) ∧
    (∀ d, dget config "azure" = some (.dict d) → hasKey d "use_static_ip" →
        kvLine "use_static_ip" (vget d "use_static_ip") ∈ ls) ∧
    (∀ d, dget config "azure" = some (.dict d) → truthy (vget d "availability_zones") →
        kvLine "availability_zones" (vget d "availability_zones") ∈ ls) ∧
    (∀ d, dget config "ssh" = some (.dict d) → truthy (vget d "admin_username") →
        kvLine "admin_username" (vget d "admin_username") ∈ ls) ∧
    (∀ d, dget config "network" = some (.dict d) → truthy (vget d "vnet_address_space") →
        kvLine "vnet_address_space" (vget d "vnet_address_space") ∈ ls) ∧
    (∀ d, dget config "network" = some (.dict d) → truthy (vget d "subnet_address") →
        kvLine "subnet_address" (vget d "subnet_address") ∈ ls) ∧
    (∀ v, dget config "tags" = some v → kvLine "tags" v ∈ ls) := by
  refine ⟨?_, ?_, ?_, ?_, ?_, ?_, ?_, ?_, ?_, ?_, ?_, ?_, ?_, ?_, ?_, ?_, ?_, ?_⟩
  · intro d hd ht
    exact azure_lines_sub config ls h d hd _ (by simp [azureSection, truthyLine, ht])
  · intro d hd ht
    exact ssh_lines_sub config ls h d hd _ (by simp [sshSection, truthyLine, ht])
  · intro d hd ht
    exact ssh_lines_sub config ls h d hd _ (by simp [sshSection, truthyLine, ht])
  · intro d hd ht
    exact ssh_lines_sub config ls h d hd _ (by simp [sshSection, truthyLine, presenceLine, ht])
  · intro d hd ht
    exact wireguard_lines_sub config ls h d hd _ (by simp [wireguardSection, truthyLine, ht])
  · intro v hmem
    have ho := kvLine_origin config "resource_group" v (by decide) 'r' ("esource_group".data) (by decide) (by decide)
      (mem_tfvarsLines config ls h _ hmem)
    rcases ho with ⟨g, f, d, hw, _⟩ | ⟨g, f, d, hw, _⟩ | ⟨hnm, _⟩
    · simp [truthyFields] at hw
    · simp [presenceFields] at hw
    · exact absurd hnm (by decide)
  · intro v hmem
    have ho := kvLine_origin config "public_key_path" v (by decide) 'p' ("ublic_key_path".data) (by decide) (by decide)
      (mem_tfvarsLines config ls h _ hmem)
    rcases ho with ⟨g, f, d, hw, _⟩ | ⟨g, f, d, hw, _⟩ | ⟨hnm, _⟩
    · simp [truthyFields] at hw
    · simp [presenceFields] at hw
    · exact absurd hnm (by decide)
  · intro v hmem
    have ho := kvLine_origin config "allowed_ipv4" v (by decide) 'a' ("llowed_ipv4".data) (by decide) (by decide)
      (mem_tfvarsLines config ls h _ hmem)
    rcases ho with ⟨g, f, d, hw, _⟩ | ⟨g, f, d, hw, _⟩ | ⟨hnm, _⟩
    · simp [truthyFields] at hw
    · simp [presenceFields] at hw
    · exact absurd hnm (by decide)
  · intro v hmem
    have ho := kvLine_origin config "allowed_ipv6" v (by decide) 'a' ("llowed_ipv6".data) (by decide) (by decide)
      (mem_tfvarsLines config ls h _ hmem)
    rcases ho with ⟨g, f, d, hw, _⟩ | ⟨g, f, d, hw, _⟩ | ⟨hnm, _⟩
    · simp [truthyFields] at hw
    · simp [presenceFields] at hw
    · exact absurd hnm (by decide)
  · intro v hmem
    have ho := kvLine_origin config "port" v (by decide) 'p' ("ort".data) (by decide) (by decide)
      (mem_tfvarsLines config ls h _ hmem)
    rcases ho with ⟨g, f, d, hw, _⟩ | ⟨g, f, d, hw, _⟩ | ⟨hnm, _⟩
    · simp [truthyFields] at hw
    · simp [presenceFields] at hw
    · exact absurd hnm (by decide)
  · intro d hd ht
    exact azure_lines_sub config ls h d hd _ (by simp [azureSection, truthyLine, ht])
  · intro d hd ht
    exact azure_lines_sub config ls h d hd _ (by simp [azureSection, truthyLine, ht])
  · intro d hd ht
    exact azure_lines_sub config ls h d hd _ (by simp [azureSection, truthyLine, presenceLine, ht])
  · intro d hd ht
    exact azure_lines_sub config ls h d hd _ (by simp [azureSection, truthyLine, ht])
  · intro d hd ht
    exact ssh_lines_sub config ls h d hd _ (by simp [sshSection, truthyLine, ht])
  · intro d hd ht
    exact network_lines_sub config ls h d hd _ (by simp [networkSection, truthyLine, ht])
  · intro d hd ht
    exact network_lines_sub config ls h d hd _ (by simp [networkSection, truthyLine, ht])
  · intro v hv
    exact tags_line_mem config ls h v hv

/-- C9 witness: a wireguard document emits the port under the
identifier wireguard_port. -/
theorem c9_witness :
    "wireguard_port = 51820" ∈ header ++ ["wireguard_port = 51820", ""] := by
  have h : tfvarsLines [("wireguard", .dict [("port", .int 51820)])] =
      .ok (header ++ [kvLine "wireguard_port" (vget [("port", .int 51820)] "port"), ""]) := by
    rfl
  have hm := (c9_identifier_mapping _ _ h).2.2.2.2.1 [("port", .int 51820)] rfl (by decide)
  have he : kvLine "wireguard_port" (vget [("port", .int 51820)] "port") =
      "wireguard_port = 51820" := by
    simp [kvLine, vget, dget, to_hcl_value, intStr, natStr, natChars, digitChar]
  rw [he] at hm
  exact hm

/-! ## Claim C10: falsy omission versus presence emission -/

theorem nonHashHead (nm : String) (h : nm.data.head? ≠ some '#') (hne : nm.data ≠ []) :
    ∃ c cs, nm.data = c :: cs ∧ c ≠ '#' := by
  cases hd : nm.data with
  | nil => exact absurd hd hne
  | cons c cs =>
    refine ⟨c, cs, rfl, fun hcc => h ?_⟩
    rw [hd, hcc]
    rfl

theorem truthyFields_head (g f o : String) (h : (g, f, o) ∈ truthyFields) :
    ∃ c cs, o.data = c :: cs ∧ c ≠ '#' := by
  fin_cases h <;> exact nonHashHead _ (by decide) (by decide)

theorem truthyFields_unique (g f o : String) (h1 : (g, f, o) ∈ truthyFields)
    (g' f' : String) (h2 : (g', f', o) ∈ truthyFields) : g' = g ∧ f' = f := by
  fin_cases h1 <;> (simp [truthyFields] at h2; exact ⟨h2.1, h2.2⟩)

theorem truthyFields_not_presence (g f o : String) (h1 : (g, f, o) ∈ truthyFields)
    (g' f' : String) (h2 : (g', f', o) ∈ presenceFields) : False := by
  fin_cases h1 <;> simp [presenceFields] at h2

theorem truthyFields_ne_tags (g f o : String) (h : (g, f, o) ∈ truthyFields) :
    o ≠ "tags" := by
  fin_cases h <;> decide

/-- C10 counterexample: the tags line is emitted for a present tags key
even when its value is falsy (the empty mapping), so tags is a third
exception alongside use_static_ip and allowed_ipv6, and the claim as
stated fails. -/
theorem c10_counterexample :
    tfvarsLines [("tags", .dict [])] = .ok (header ++ [kvLine "tags" (.dict []), ""]) ∧
    truthy (.dict []) = false := by
  exact ⟨rfl, rfl⟩

/-- C10 (amended): every truthiness-gated whitelisted field is omitted
whenever its value is falsy (absent, null, false, zero, empty string,
empty sequence, empty mapping); the three presence-gated fields
azure.use_static_ip, ssh.allowed_ipv6 and tags are emitted whenever
their key is present, even with a falsy value. -/
theorem c10_gating (config : List (String × YVal)) (ls : List String)
    (h : tfvarsLines config = .ok ls) :
    (∀ g f o, (g, f, o) ∈ truthyFields → ∀ d, dget config g = some (.dict d) →
       truthy (vget d f) = false → ∀ v, kvLine o v ∉ ls) ∧
    (∀ d, dget config "azure" = some (.dict d) → hasKey d "use_static_ip" →
       kvLine "use_static_ip" (vget d "use_static_ip") ∈ ls) ∧
    (∀ d, dget config "ssh" = some (.dict d) → hasKey d "allowed_ipv6" →
       kvLine "allowed_ssh_ipv6" (vget d "allowed_ipv6") ∈ ls) ∧
    (∀ v, dget config "tags" = some v → kvLine "tags" v ∈ ls) := by
  refine ⟨?_, ?_, ?_, ?_⟩
  · intro g f o hw d hd hf v hmem
    obtain ⟨c, cs, hdata, hc⟩ := truthyFields_head g f o hw
    have ho := kvLine_origin config o v (truthyFields_names g f o hw) c cs hdata hc
      (mem_tfvarsLines config ls h _ hmem)
    rcases ho with ⟨g', f', d', hw', hd', ht', he⟩ | ⟨g', f', d', hw', hd', ht', he⟩ | ⟨hnm, _⟩
    · obtain ⟨rfl, rfl⟩ := truthyFields_unique g f o hw g' f' hw'
      rw [hd] at hd'
      simp only [Option.some.injEq, YVal.dict.injEq] at hd'
      subst hd'
      simp [hf] at ht'
    · exact truthyFields_not_presence g f o hw g' f' hw'
    · exact truthyFields_ne_tags g f o hw hnm
  · intro d hd hk
    exact azure_lines_sub config ls h d hd _
      (by simp [azureSection, truthyLine, presenceLine, hk])
  · intro d hd hk
    exact ssh_lines_sub config ls h d hd _
      (by simp [sshSection, truthyLine, presenceLine, hk])
  · intro v hv
    exact tags_line_mem config ls h v hv

/-- C10 witness: use_static_ip false is still emitted. -/
theorem c10_witness :
    kvLine "use_static_ip" (vget [("use_static_ip", .bool false)] "use_static_ip") ∈
      header ++ [kvLine "use_static_ip" (vget [("use_static_ip", .bool false)] "use_static_ip"), ""] := by
  have h : tfvarsLines [("azure", .dict [("use_static_ip", .bool false)])] =
      .ok (header ++ [kvLine "use_static_ip" (vget [("use_static_ip", .bool false)] "use_static_ip"), ""]) := by
    rfl
  exact (c10_gating _ _ h).2.1 [("use_static_ip", .bool false)] rfl (by decide)

/-! ## Claim C7: output structure, section order, blank separation -/

theorem kvLine_nonempty (nm : String) (v : YVal) : kvLine nm v ≠ "" := by
  intro h
  have hd := congrArg String.data h
  rw [kvLine_data] at hd
  simp at hd

theorem azureSection_no_blank (d : List (String × YVal)) :
    ∀ x ∈ azureSection d, x ≠ "" := by
  intro x hx
  unfold azureSection at hx
  simp only [List.mem_append] at hx
  rcases hx with ((((hx | hx) | hx) | hx) | hx)
  · obtain ⟨_, rfl⟩ := mem_truthyLine _ _ _ _ hx; exact kvLine_nonempty _ _
  · obtain ⟨_, rfl⟩ := mem_truthyLine _ _ _ _ hx; exact kvLine_nonempty _ _
  · obtain ⟨_, rfl⟩ := mem_truthyLine _ _ _ _ hx; exact kvLine_nonempty _ _
  · obtain ⟨_, rfl⟩ := mem_presenceLine _ _ _ _ hx; exact kvLine_nonempty _ _
  · obtain ⟨_, rfl⟩ := mem_truthyLine _ _ _ _ hx; exact kvLine_nonempty _ _

theorem sshSection_no_blank (d : List (String × YVal)) :
    ∀ x ∈ sshSection d, x ≠ "" := by
  intro x hx
  unfold sshSection at hx
  simp only [List.mem_append] at hx
  rcases hx with (((hx | hx) | hx) | hx)
  · obtain ⟨_, rfl⟩ := mem_truthyLine _ _ _ _ hx; exact kvLine_nonempty _ _
  · obtain ⟨_, rfl⟩ := mem_truthyLine _ _ _ _ hx; exact kvLine_nonempty _ _
  · obtain ⟨_, rfl⟩ := mem_truthyLine _ _ _ _ hx; exact kvLine_nonempty _ _
  · obtain ⟨_, rfl⟩ := mem_presenceLine _ _ _ _ hx; exact kvLine_nonempty _ _

theorem networkSection_no_blank (d : List (String × YVal)) :
    ∀ x ∈ networkSection d, x ≠ "" := by
  intro x hx
  unfold networkSection at hx
  simp only [List.mem_append] at hx
  rcases hx with (hx | hx)
  · obtain ⟨_, rfl⟩ := mem_truthyLine _ _ _ _ hx; exact kvLine_nonempty _ _
  · obtain ⟨_, rfl⟩ := mem_truthyLine _ _ _ _ hx; exact kvLine_nonempty _ _

theorem wireguardSection_no_blank (d : List (String × YVal)) :
    ∀ x ∈ wireguardSection d, x ≠ "" := by
  intro x hx
  obtain ⟨_, rfl⟩ := mem_truthyLine _ _ _ _ hx
  exact kvLine_nonempty _ _

/-- A line list made of nonempty blank-free bodies, each followed by
exactly one blank separator line. -/
inductive SepBlocks : List String → Prop where
  | nil : SepBlocks []
  | block (body rest : List String) :
      body ≠ [] → (∀ x ∈ body, x ≠ "") → SepBlocks rest →
      SepBlocks (body ++ "" :: rest)

theorem sepBlocks_chunk (c rest : List String)
    (hc : c = [] ∨ ∃ body, c = body ++ [""] ∧ body ≠ [] ∧ ∀ x ∈ body, x ≠ "")
    (h : SepBlocks rest) : SepBlocks (c ++ rest) := by
  rcases hc with rfl | ⟨body, rfl, hne, hb⟩
  · simpa using h
  · rw [List.append_assoc]
    exact SepBlocks.block body rest hne hb h

theorem chain_blankfree (body : List String) (hb : ∀ x ∈ body, x ≠ "")
    (rest : List String)
    (h : List.Chain' (fun x y => x ≠ "" ∨ y ≠ "") ("" :: rest)) :
    List.Chain' (fun x y => x ≠ "" ∨ y ≠ "") (body ++ "" :: rest) := by
  induction body with
  | nil => exact h
  | cons b bs ih =>
    rw [List.cons_append, List.chain'_cons']
    exact ⟨fun y _ => Or.inl (hb b (List.mem_cons_self b bs)),
      ih (fun x hx => hb x (List.mem_cons_of_mem _ hx))⟩

theorem chain_of_sepBlocks (l : List String) (h : SepBlocks l) :
    List.Chain' (fun x y => x ≠ "" ∨ y ≠ "") ("" :: l) := by
  induction h with
  | nil => simp
  | block body rest hne hb _ ih =>
    rw [List.chain'_cons']
    constructor
    · intro y hy
      cases body with
      | nil => exact absurd rfl hne
      | cons b bs =>
        simp only [List.cons_append, List.head?_cons, Option.mem_def, Option.some.injEq] at hy
        exact Or.inr (hy ▸ hb b (List.mem_cons_self b bs))
    · exact chain_blankfree body hb rest ih

/-- C7 counterexample: a present azure group with no emitted field
leaves a stray blank line, so the output has two consecutive blank
lines between the header and the ssh section, refuting the
exactly-one-blank-line separation. -/
theorem c7_counterexample :
    tfvarsLines [("azure", .dict []), ("ssh", .dict [("admin_username", .str "u")])] =
      .ok (headerComments ++ ["", "", kvLine "admin_username" (.str "u"), ""]) ∧
    (headerComments ++ ["", "", kvLine "admin_username" (.str "u"), ""]).get? 5 = some "" ∧
    (headerComments ++ ["", "", kvLine "admin_username" (.str "u"), ""]).get? 6 = some "" := by
  exact ⟨rfl, rfl, rfl⟩

/-- C7 (amended): the output is the fixed five-line comment header and
one blank line, followed by the sections of the present recognized
groups in the fixed order azure, ssh, network, wireguard, tags; a group
absent from the document contributes nothing.  Provided every present
group emits at least one assignment line, no two consecutive blank
lines occur anywhere, so consecutive emitted parts are separated by
exactly one blank line; a present group emitting no line instead
contributes a stray blank line. -/
theorem c7_output_structure (config : List (String × YVal)) (ls : List String)
    (h : tfvarsLines config = .ok ls) :
    (ls.take 6 = headerComments ++ [""]) ∧
    (∃ a s n w,
       ls = headerComments ++ [""] ++ (a ++ s ++ n ++ w ++ tagsSection config) ∧
       (dget config "azure" = none → a = []) ∧
       (∀ d, dget config "azure" = some (.dict d) → a = azureSection d ++ [""]) ∧
       (dget config "ssh" = none → s = []) ∧
       (∀ d, dget config "ssh" = some (.dict d) → s = sshSection d ++ [""]) ∧
       (dget config "network" = none → n = []) ∧
       (∀ d, dget config "network" = some (.dict d) → n = networkSection d ++ [""]) ∧
       (dget config "wireguard" = none → w = []) ∧
       (∀ d, dget config "wireguard" = some (.dict d) → w = wireguardSection d ++ [""]) ∧
       (dget config "tags" = none → tagsSection config = [])) ∧
    ((∀ d, dget config "azure" = some (.dict d) → azureSection d ≠ []) →
     (∀ d, dget config "ssh" = some (.dict d) → sshSection d ≠ []) →
     (∀ d, dget config "network" = some (.dict d) → networkSection d ≠ []) →
     (∀ d, dget config "wireguard" = some (.dict d) → wireguardSection d ≠ []) →
     List.Chain' (fun x y => x ≠ "" ∨ y ≠ "") ls) := by
  obtain ⟨a, sc, n, w, ha, hs, hn, hw, rfl⟩ := tfvarsLines_shape config ls h
  have hshape : header ++ a ++ sc ++ n ++ w ++ tagsSection config =
      headerComments ++ [""] ++ (a ++ sc ++ n ++ w ++ tagsSection config) := by
    simp [header, List.append_assoc]
  constructor
  · rw [hshape]
    rw [show headerComments ++ [""] ++ (a ++ sc ++ n ++ w ++ tagsSection config) =
      (headerComments ++ [""]) ++ (a ++ sc ++ n ++ w ++ tagsSection config) by simp [List.append_assoc]]
    rw [show (6 : Nat) = (headerComments ++ [""]).length by rfl]
    exact List.take_left _ _
  constructor
  · refine ⟨a, sc, n, w, hshape, ?_, ?_, ?_, ?_, ?_, ?_, ?_, ?_, ?_⟩
    · intro h0
      rcases groupSection_ok _ _ _ _ ha with ⟨_, rfl⟩ | ⟨d', hd', _⟩
      · rfl
      · rw [h0] at hd'; cases hd'
    · intro d hd
      rcases groupSection_ok _ _ _ _ ha with ⟨h0, _⟩ | ⟨d', hd', rfl⟩
      · rw [h0] at hd; cases hd
      · rw [hd'] at hd
        have : d' = d := by simpa using hd
        rw [this]
    · intro h0
      rcases groupSection_ok _ _ _ _ hs with ⟨_, rfl⟩ | ⟨d', hd', _⟩
      · rfl
      · rw [h0] at hd'; cases hd'
    · intro d hd
      rcases groupSection_ok _ _ _ _ hs with ⟨h0, _⟩ | ⟨d', hd', rfl⟩
      · rw [h0] at hd; cases hd
      · rw [hd'] at hd
        have : d' = d := by simpa using hd
        rw [this]
    · intro h0
      rcases groupSection_ok _ _ _ _ hn with ⟨_, rfl⟩ | ⟨d', hd', _⟩
      · rfl
      · rw [h0] at hd'; cases hd'
    · intro d hd
      rcases groupSection_ok _ _ _ _ hn with ⟨h0, _⟩ | ⟨d', hd', rfl⟩
      · rw [h0] at hd; cases hd
      · rw [hd'] at hd
        have : d' = d := by simpa using hd
        rw [this]
    · intro h0
      rcases groupSection_ok _ _ _ _ hw with ⟨_, rfl⟩ | ⟨d', hd', _⟩
      · rfl
      · rw [h0] at hd'; cases hd'
    · intro d hd
      rcases groupSection_ok _ _ _ _ hw with ⟨h0, _⟩ | ⟨d', hd', rfl⟩
      · rw [h0] at hd; cases hd
      · rw [hd'] at hd
        have : d' = d := by simpa using hd
        rw [this]
    · intro h0
      unfold tagsSection
      rw [h0]
  · intro hna hns hnn hnw
    rw [hshape]
    have hblocks : SepBlocks (a ++ sc ++ n ++ w ++ tagsSection config) := by
      rw [List.append_assoc, List.append_assoc, List.append_assoc]
      apply sepBlocks_chunk
      · rcases groupSection_ok _ _ _ _ ha with ⟨_, rfl⟩ | ⟨d', hd', rfl⟩
        · exact Or.inl rfl
        · exact Or.inr ⟨azureSection d', rfl, hna d' hd', azureSection_no_blank d'⟩
      apply sepBlocks_chunk
      · rcases groupSection_ok _ _ _ _ hs with ⟨_, rfl⟩ | ⟨d', hd', rfl⟩
        · exact Or.inl rfl
        · exact Or.inr ⟨sshSection d', rfl, hns d' hd', sshSection_no_blank d'⟩
      apply sepBlocks_chunk
      · rcases groupSection_ok _ _ _ _ hn with ⟨_, rfl⟩ | ⟨d', hd', rfl⟩
        · exact Or.inl rfl
        · exact Or.inr ⟨networkSection d', rfl, hnn d' hd', networkSection_no_blank d'⟩
      apply sepBlocks_chunk
      · rcases groupSection_ok _ _ _ _ hw with ⟨_, rfl⟩ | ⟨d', hd', rfl⟩
        · exact Or.inl rfl
        · exact Or.inr ⟨wireguardSection d', rfl, hnw d' hd', wireguardSection_no_blank d'⟩
      unfold tagsSection
      cases dget config "tags" with
      | none => exact SepBlocks.nil
      | some v =>
        show SepBlocks ([kvLine "tags" v] ++ "" :: [])
        exact SepBlocks.block _ _ (by simp) (by simp [kvLine_nonempty]) SepBlocks.nil
    have hchain := chain_of_sepBlocks _ hblocks
    rw [show headerComments ++ [""] ++ (a ++ sc ++ n ++ w ++ tagsSection config) =
      headerComments ++ "" :: (a ++ sc ++ n ++ w ++ tagsSection config) by simp]
    exact chain_blankfree headerComments (by decide) _ hchain

/-- C7 witness: a concrete single-group document has the separated
structure with no two consecutive blank lines. -/
theorem c7_witness :
    List.Chain' (fun x y => x ≠ "" ∨ y ≠ "")
      (header ++ [kvLine "wireguard_port" (vget [("port", .int 51820)] "port"), ""]) := by
  have h : tfvarsLines [("wireguard", .dict [("port", .int 51820)])] =
      .ok (header ++ [kvLine "wireguard_port" (vget [("port", .int 51820)] "port"), ""]) := by
    rfl
  refine (c7_output_structure _ _ h).2.2 ?_ ?_ ?_ ?_
  · intro d hd; simp [dget] at hd
  · intro d hd; simp [dget] at hd
  · intro d hd; simp [dget] at hd
  · intro d hd
    simp [dget] at hd
    subst hd
    simp [wireguardSection, truthyLine, vget, dget, truthy]

/-! ## Claim C8: driver exit codes -/

/-- C8 counterexample: in normal mode, on a document that was found and
parsed, the driver still exits 1 when the validator raises (here
ssh.allowed_ipv4 is the integer 5), so exit status 1 is not limited to
file-not-found, parse failure, or validate-only mode with problems. -/
theorem c8_counterexample :
    (mainDriver (.ok (.dict [("ssh", .dict [("allowed_ipv4", .int 5)])])) false false).exitCode
      = 1 := by
  rfl

/-- C8 (amended): exit status is 1 exactly on file-not-found, parse
failure, validate-only mode with a non-empty problem list, or an
uncaught exception from the validator or converter on a type-confused
document.  On documents where neither raises: validate-only on a fully
valid document prints the success message, produces no converted
output, and exits 0; in normal mode validation problems do not stop
conversion and the exit status is 0 with the converted text produced. -/
theorem c8_exit_codes (doc : YVal) (errs : List String) (tf : String)
    (hv : validate_doc doc = .ok errs) (ht : tfvars_doc doc = .ok tf) :
    (∀ vo out, (mainDriver .notFound vo out).exitCode = 1 ∧
               (mainDriver .parseError vo out).exitCode = 1) ∧
    (∀ out, (mainDriver (.ok doc) true out).exitCode =
              (if errs.isEmpty then 0 else 1)) ∧
    (errs.isEmpty → ∀ out, mainDriver (.ok doc) true out =
      ⟨0, ["Configuration is valid."], none⟩) ∧
    (∀ out, (mainDriver (.ok doc) false out).exitCode = 0 ∧
            (mainDriver (.ok doc) false out).converted = some tf) := by
  refine ⟨fun vo out => ⟨rfl, rfl⟩, ?_, ?_, ?_⟩
  · intro out
    unfold mainDriver
    dsimp only
    rw [hv]
    by_cases he : errs.isEmpty <;> simp [he]
  · intro he out
    unfold mainDriver
    dsimp only
    rw [hv]
    simp [he]
  · intro out
    unfold mainDriver
    dsimp only
    rw [hv, ht]
    by_cases he : errs.isEmpty <;> cases out <;> simp [he]

/-- C8 witness: concrete runs of the driver on the empty mapping
document (which validates with problems but converts fine). -/
theorem c8_witness :
    (∀ vo out, (mainDriver .notFound vo out).exitCode = 1 ∧
               (mainDriver .parseError vo out).exitCode = 1) ∧
    (∀ out, (mainDriver (.ok (.dict [])) true out).exitCode =
      (if (["  - ssh.admin_username: not set or still CHANGEME",
            "  - ssh.allowed_ipv4: not set or still CHANGEME"] : List String).isEmpty
       then 0 else 1)) ∧
    ((["  - ssh.admin_username: not set or still CHANGEME",
       "  - ssh.allowed_ipv4: not set or still CHANGEME"] : List String).isEmpty →
      ∀ out, mainDriver (.ok (.dict [])) true out = ⟨0, ["Configuration is valid."], none⟩) ∧
    (∀ out, (mainDriver (.ok (.dict [])) false out).exitCode = 0 ∧
            (mainDriver (.ok (.dict [])) false out).converted = some (joinSep "\n" header)) := by
  exact c8_exit_codes (.dict [])
    ["  - ssh.admin_username: not set or still CHANGEME",
     "  - ssh.allowed_ipv4: not set or still CHANGEME"]
    (joinSep "\n" header) rfl rfl

/-! ## Claim C6: sequence rendering -/

/-- The two shapes of a float repr, unpacked as existentials so a
FloatTok hypothesis over a non-variable list can be destructed. -/
theorem floatTok_cases (cs : List Char) (h : FloatTok cs) :
    (∃ sgn ds ds2 e, (sgn = [] ∨ sgn = ['-']) ∧ ds ≠ [] ∧ (∀ c ∈ ds, c.isDigit = true) ∧
       ds2 ≠ [] ∧ (∀ c ∈ ds2, c.isDigit = true) ∧ ExpTok e ∧
       cs = sgn ++ (ds ++ ('.' :: (ds2 ++ e)))) ∨
    (∃ sgn ds s es, (sgn = [] ∨ sgn = ['-']) ∧ ds ≠ [] ∧ (∀ c ∈ ds, c.isDigit = true) ∧
       isExpSign s = true ∧ es ≠ [] ∧ (∀ c ∈ es, c.isDigit = true) ∧
       cs = sgn ++ (ds ++ ('e' :: (s :: es)))) := by
  cases h with
  | frac sgn ds ds2 e h1 h2 h3 h4 h5 h6 =>
    exact Or.inl ⟨sgn, ds, ds2, e, h1, h2, h3, h4, h5, h6, rfl⟩
  | exp sgn ds s es h1 h2 h3 h4 h5 h6 =>
    exact Or.inr ⟨sgn, ds, s, es, h1, h2, h3, h4, h5, h6, rfl⟩

theorem digit_run_no_newline (l : List Char) (hl : ∀ c ∈ l, c.isDigit = true) :
    '\n' ∉ l :=
  fun h => absurd (hl _ h) (by decide)

theorem expTok_no_newline (e : List Char) (he : ExpTok e) : '\n' ∉ e := by
  cases he with
  | absent => simp
  | signed s es hs hne hd =>
    intro hmem
    rcases List.mem_cons.mp hmem with h | hmem2
    · exact absurd h (by decide)
    rcases List.mem_cons.mp hmem2 with h | h
    · rw [← h] at hs
      exact absurd hs (by decide)
    · exact absurd (hd _ h) (by decide)

/-- The canonical repr of a finite float holds no newline: every
character is a digit, a dot, the letter e or a sign. -/
theorem floatTok_no_newline (cs : List Char) (h : FloatTok cs) : '\n' ∉ cs := by
  intro hmem
  rcases floatTok_cases cs h with
    ⟨sgn, ds, ds2, e, hsgn, _, hdd, _, h2d, he, hEq⟩ |
    ⟨sgn, ds, s, es, hsgn, _, hdd, hs, _, hed, hEq⟩ <;>
    rw [hEq] at hmem
  · rcases List.mem_append.mp hmem with h1 | h1
    · rcases hsgn with rfl | rfl
      · exact absurd h1 (List.not_mem_nil _)
      · rw [List.mem_singleton] at h1
        exact absurd h1 (by decide)
    · rcases List.mem_append.mp h1 with h2 | h2
      · exact digit_run_no_newline ds hdd h2
      · rcases List.mem_cons.mp h2 with h3 | h3
        · exact absurd h3 (by decide)
        · rcases List.mem_append.mp h3 with h4 | h4
          · exact digit_run_no_newline ds2 h2d h4
          · exact expTok_no_newline e he h4
  · rcases List.mem_append.mp hmem with h1 | h1
    · rcases hsgn with rfl | rfl
      · exact absurd h1 (List.not_mem_nil _)
      · rw [List.mem_singleton] at h1
        exact absurd h1 (by decide)
    · rcases List.mem_append.mp h1 with h2 | h2
      · exact digit_run_no_newline ds hdd h2
      · rcases List.mem_cons.mp h2 with h3 | h3
        · exact absurd h3 (by decide)
        · rcases List.mem_cons.mp h3 with h4 | h4
          · rw [← h4] at hs
            exact absurd hs (by decide)
          · exact digit_run_no_newline es hed h4

/-- Values whose rendering stays on one line: no mapping anywhere, and
no string holding a literal newline character.  A well-formed float
repr never holds a newline. -/
inductive DictFree : YVal → Prop where
  | null : DictFree .null
  | bool (b : Bool) : DictFree (.bool b)
  | int (n : Int) : DictFree (.int n)
  | float (m : String) : FloatTok m.data → DictFree (.float m)
  | str (s : String) : '\n' ∉ s.data → DictFree (.str s)
  | list (xs : List YVal) : (∀ x ∈ xs, DictFree x) → DictFree (.list xs)

theorem digitChar_isDigit (n : Nat) (h : n < 10) : (digitChar n).isDigit = true := by
  interval_cases n <;> decide

theorem natChars_all_digits : ∀ (f n : Nat), ∀ c ∈ natChars f n, c.isDigit = true := by
  intro f
  induction f with
  | zero => intro n c hc; simp [natChars] at hc
  | succ f ih =>
    intro n c hc
    unfold natChars at hc
    by_cases h : n < 10
    · rw [if_pos h] at hc
      simp at hc
      rw [hc]
      exact digitChar_isDigit n h
    · rw [if_neg h] at hc
      rcases List.mem_append.mp hc with hc | hc
      · exact ih _ c hc
      · simp at hc
        rw [hc]
        exact digitChar_isDigit _ (Nat.mod_lt n (by omega))

theorem isDigit_ne_newline (c : Char) (h : c.isDigit = true) : c ≠ '\n' := by
  intro hc
  rw [hc] at h
  exact absurd h (by decide)

theorem intStr_no_newline (n : Int) : '\n' ∉ (intStr n).data := by
  intro hmem
  cases n with
  | ofNat m =>
    unfold intStr natStr at hmem
    exact absurd rfl (isDigit_ne_newline _ (natChars_all_digits _ _ _ hmem)).symm
  | negSucc m =>
    unfold intStr natStr at hmem
    rw [String.data_append] at hmem
    rcases List.mem_append.mp hmem with h | h
    · simp at h
    · exact absurd rfl (isDigit_ne_newline _ (natChars_all_digits _ _ _ h)).symm

theorem mem_escapeSpec (c : Char) : ∀ (l : List Char), c ∈ escapeSpec l →
    c ∈ l ∨ c = '\\' ∨ c = '"' := by
  intro l
  induction l with
  | nil => intro h; simp [escapeSpec] at h
  | cons b bs ih =>
    intro h
    unfold escapeSpec at h
    rcases List.mem_append.mp h with h | h
    · by_cases hb : b = '\\'
      · rw [if_pos hb] at h
        simp at h
        exact Or.inr (Or.inl h)
      · rw [if_neg hb] at h
        by_cases hq : b = '"'
        · rw [if_pos hq] at h
          simp at h
          rcases h with rfl | rfl
          · exact Or.inr (Or.inl rfl)
          · exact Or.inr (Or.inr rfl)
        · rw [if_neg hq] at h
          simp at h
          exact Or.inl (h ▸ List.mem_cons_self b bs)
    · rcases ih h with h | h
      · exact Or.inl (List.mem_cons_of_mem _ h)
      · exact Or.inr h

theorem mem_joinSep (sep : String) (c : Char) : ∀ (parts : List String),
    c ∈ (joinSep sep parts).data → (∃ p ∈ parts, c ∈ p.data) ∨ c ∈ sep.data := by
  intro parts
  induction parts with
  | nil => intro h; simp [joinSep] at h
  | cons x xs ih =>
    intro h
    cases xs with
    | nil => exact Or.inl ⟨x, by simp, h⟩
    | cons y ys =>
      rw [show joinSep sep (x :: y :: ys) = x ++ sep ++ joinSep sep (y :: ys) from rfl] at h
      rw [String.data_append, String.data_append] at h
      rcases List.mem_append.mp h with h | h
      · rcases List.mem_append.mp h with h | h
        · exact Or.inl ⟨x, by simp, h⟩
        · exact Or.inr h
      · rcases ih h with ⟨p, hp, hc⟩ | h
        · exact Or.inl ⟨p, List.mem_cons_of_mem _ hp, hc⟩
        · exact Or.inr h

theorem no_newline_of_dictFree : ∀ (m : Nat) (v : YVal), sizeOf v ≤ m → DictFree v →
    ∀ i, '\n' ∉ (to_hcl_value v i).data := by
  intro m
  induction m using Nat.strong_induction_on with
  | _ m ih =>
    intro v hm hdf i hmem
    cases hdf with
    | null =>
      rw [show to_hcl_value .null i = "\"\"" from by rw [to_hcl_value.eq_def]] at hmem
      exact absurd hmem (by decide)
    | bool b =>
      cases b
      · rw [show to_hcl_value (.bool false) i = "false" from by rw [to_hcl_value.eq_def]; rfl] at hmem
        exact absurd hmem (by decide)
      · rw [show to_hcl_value (.bool true) i = "true" from by rw [to_hcl_value.eq_def]; rfl] at hmem
        exact absurd hmem (by decide)
    | int n =>
      rw [show to_hcl_value (.int n) i = intStr n from by rw [to_hcl_value.eq_def]] at hmem
      exact intStr_no_newline n hmem
    | float fm hfm =>
      rw [show to_hcl_value (.float fm) i = fm from by rw [to_hcl_value.eq_def]] at hmem
      exact floatTok_no_newline fm.data hfm hmem
    | str s hs =>
      rw [c5_string_escaping] at hmem
      rw [String.data_append, String.data_append] at hmem
      rcases List.mem_append.mp hmem with h | h
      · rcases List.mem_append.mp h with h | h
        · simp at h
        · rcases mem_escapeSpec _ _ h with h | h | h
          · exact hs h
          · exact absurd h (by decide)
          · exact absurd h (by decide)
      · simp at h
    | list xs hxs =>
      rw [to_hcl_value_list] at hmem
      by_cases hempty : xs.isEmpty
      · rw [if_pos hempty] at hmem
        exact absurd hmem (by decide)
      · rw [if_neg hempty] at hmem
        rw [String.data_append, String.data_append] at hmem
        rcases List.mem_append.mp hmem with h | h
        · rcases List.mem_append.mp h with h | h
          · simp at h
          · rcases mem_joinSep _ _ _ h with ⟨p, hp, hc⟩ | h
            · rcases List.mem_map.mp hp with ⟨x, hx, rfl⟩
              have hsz : sizeOf x < sizeOf (YVal.list xs) := by
                have := List.sizeOf_lt_of_mem hx
                simp only [YVal.list.sizeOf_spec]
                omega
              have hm1 : 1 ≤ m := by
                have : 0 < sizeOf (YVal.list xs) := by
                  simp only [YVal.list.sizeOf_spec]; omega
                omega
              exact ih (m - 1) (by omega) x (by omega) (hxs x hx) (i + 2) hc
            · exact absurd h (by decide)
        · simp at h

/-- C6 counterexample: a sequence holding a mapping is not rendered on
a single line; the rendered text contains a newline character. -/
theorem c6_counterexample :
    '\n' ∈ (to_hcl_value (.list [.dict [("a", .int 1)]]) 0).data := by
  have h : to_hcl_value (.list [.dict [("a", .int 1)]]) 0 = "[\x7b\n    a = 1\n  \x7d]" := by
    simp [to_hcl_value_list, to_hcl_value_dict, to_hcl_value, joinSep, spaces]
    rfl
  rw [h]
  decide

/-- C6 (amended): the empty sequence renders as the two characters [],
and a non-empty sequence as an opening bracket, the recursively
rendered items joined by comma-space, and a closing bracket; the result
contains no line break provided no item recursively contains a mapping
or a string holding a newline character (a mapping item renders as a
multi-line brace block).  A document with azure.availability_zones
equal to the sequence 1, 2, 3 yields the output line
availability_zones = [1, 2, 3]. -/
theorem c6_sequence_rendering :
    (∀ i, to_hcl_value (.list []) i = "[]") ∧
    (∀ xs i, xs ≠ [] → to_hcl_value (.list xs) i =
       "[" ++ joinSep ", " (xs.map (fun x => to_hcl_value x (i + 2))) ++ "]") ∧
    (∀ xs i, DictFree (.list xs) → '\n' ∉ (to_hcl_value (.list xs) i).data) ∧
    (∀ config az ls, dget config "azure" = some (.dict az) →
       vget az "availability_zones" = .list [.int 1, .int 2, .int 3] →
       tfvarsLines config = .ok ls → "availability_zones = [1, 2, 3]" ∈ ls) := by
  refine ⟨?_, ?_, ?_, ?_⟩
  · intro i; rw [to_hcl_value_list]; rfl
  · intro xs i hne
    rw [to_hcl_value_list, if_neg (by simpa using hne)]
  · intro xs i hdf
    exact no_newline_of_dictFree (sizeOf (YVal.list xs)) _ le_rfl hdf i
  · intro config az ls hd hv h
    have hline : kvLine "availability_zones" (vget az "availability_zones") =
        "availability_zones = [1, 2, 3]" := by
      rw [hv]
      simp [kvLine, to_hcl_value_list, to_hcl_value, joinSep]
      rfl
    have ht : truthy (vget az "availability_zones") = true := by rw [hv]; rfl
    have hmem := azure_lines_sub config ls h az hd
      (kvLine "availability_zones" (vget az "availability_zones"))
      (by simp [azureSection, truthyLine, presenceLine, ht])
    rw [hline] at hmem
    exact hmem

/-- C6 witness: concrete instances of the amended statement. -/
theorem c6_witness :
    "availability_zones = [1, 2, 3]" ∈
      header ++ ["availability_zones = [1, 2, 3]", ""] := by
  have h : tfvarsLines
      [("azure", .dict [("availability_zones", .list [.int 1, .int 2, .int 3])])] =
      .ok (header ++ [kvLine "availability_zones"
        (vget [("availability_zones", .list [.int 1, .int 2, .int 3])] "availability_zones"), ""]) := by
    rfl
  have hline : kvLine "availability_zones"
      (vget [("availability_zones", .list [.int 1, .int 2, .int 3])] "availability_zones") =
      "availability_zones = [1, 2, 3]" := by
    simp [kvLine, vget, dget, to_hcl_value_list, to_hcl_value, joinSep]
    rfl
  rw [hline] at h
  exact c6_sequence_rendering.2.2.2
    [("azure", .dict [("availability_zones", .list [.int 1, .int 2, .int 3])])]
    [("availability_zones", .list [.int 1, .int 2, .int 3])]
    (header ++ ["availability_zones = [1, 2, 3]", ""]) rfl rfl h

/-! ## Claim C1: round-tripping the serialized text

The specification describes the grammar the serializer produces (the
target assignment-language literal syntax).  The parser below follows
that grammar, as the spec words it: quoted strings with backslash
escapes, bare true and false, decimal integers with an optional minus
sign, decimal float literals with a fractional part and/or a signed
exponent, single-line bracketed comma-separated sequences, and
brace-block mappings with one bare-identifier key, an equals sign and
a value per line.  No parser exists in the source (the spec rules out a round-trip
utility), so this definition is the claim-side comparison point for the
refinement property: parsing the serialized text must recover the
value.  Fuel drives the recursion; any fuel bound above the size of the
value is enough. -/

/-- The space and newline characters the grammar treats as layout. -/
def isWsChar (c : Char) : Bool := c = ' ' || c = '\n'

/-- Drop leading layout characters. -/
def skipWs : List Char → List Char
  | [] => []
  | c :: cs => if isWsChar c then skipWs cs else c :: cs

/-- Read a quoted string body up to the closing quote, undoing the
backslash escapes. -/
def parseStrBody : List Char → Option (List Char × List Char)
  | [] => none
  | c :: cs =>
    if c = '"' then some ([], cs)
    else if c = '\\' then
      match cs with
      | [] => none
      | c2 :: cs2 => (parseStrBody cs2).map (fun p => (c2 :: p.1, p.2))
    else (parseStrBody cs).map (fun p => (c :: p.1, p.2))

/-- Accumulate a decimal digit run. -/
def parseNatAcc (a : Nat) : List Char → Nat × List Char
  | [] => (a, [])
  | c :: cs => if c.isDigit then parseNatAcc (10 * a + (c.toNat - 48)) cs else (a, c :: cs)

/-- Read a non-empty decimal digit run. -/
def parseNatChars : List Char → Option (Nat × List Char)
  | [] => none
  | c :: cs => if c.isDigit then some (parseNatAcc 0 (c :: cs)) else none

/-- Bare identifier characters allowed in mapping keys. -/
def isKeyChar (c : Char) : Bool := c.isAlphanum || c = '_' || c = '-'

/-- Read the exponent part of a float literal: the letter e, a
mandatory sign and a nonempty digit run. -/
def parseExpTail : List Char → Option (List Char × List Char)
  | c :: cs =>
    if c = 'e' then
      match cs with
      | s :: cs2 =>
        if isExpSign s then
          let es := cs2.takeWhile Char.isDigit
          if es.isEmpty then none
          else some ('e' :: (s :: es), cs2.drop es.length)
        else none
      | [] => none
    else none
  | [] => none

/-- Read the part of a float literal after the integral digits: a
fractional part with an optional exponent, or a bare exponent.
Returns none when the digits close an integer literal. -/
def parseFloatTail : List Char → Option (List Char × List Char)
  | c :: cs =>
    if c = '.' then
      let ds := cs.takeWhile Char.isDigit
      if ds.isEmpty then none
      else
        match parseExpTail (cs.drop ds.length) with
        | some q => some ('.' :: (ds ++ q.1), q.2)
        | none => some ('.' :: ds, cs.drop ds.length)
    else parseExpTail (c :: cs)
  | [] => none

mutual

/-- Parse one literal of the grammar the serializer emits. -/
def parseVal : Nat → List Char → Option (YVal × List Char)
  | 0, _ => none
  | f + 1, cs =>
    match cs with
    | [] => none
    | c :: rest =>
      if c = '"' then
        match parseStrBody rest with
        | some p => some (.str ⟨p.1⟩, p.2)
        | none => none
      else if c = '[' then
        if rest.head? = some ']' then some (.list [], rest.tail)
        else
          match parseItems f rest with
          | some p => some (.list p.1, p.2)
          | none => none
      else if c = '\x7b' then
        if (skipWs rest).head? = some '\x7d' then some (.dict [], (skipWs rest).tail)
        else
          match parseEntries f (skipWs rest) with
          | some p => some (.dict p.1, p.2)
          | none => none
      else if c = 't' then
        match rest with
        | 'r' :: 'u' :: 'e' :: r => some (.bool true, r)
        | _ => none
      else if c = 'f' then
        match rest with
        | 'a' :: 'l' :: 's' :: 'e' :: r => some (.bool false, r)
        | _ => none
      else if c = '-' then
        if (rest.takeWhile Char.isDigit).isEmpty then none
        else
          match parseFloatTail (rest.drop (rest.takeWhile Char.isDigit).length) with
          | some q => some (.float ⟨'-' :: (rest.takeWhile Char.isDigit ++ q.1)⟩, q.2)
          | none =>
            match parseNatChars rest with
            | some p => some (.int (-(p.1 : Int)), p.2)
            | none => none
      else if c.isDigit then
        match parseFloatTail ((c :: rest).drop ((c :: rest).takeWhile Char.isDigit).length) with
        | some q => some (.float ⟨(c :: rest).takeWhile Char.isDigit ++ q.1⟩, q.2)
        | none =>
          match parseNatChars (c :: rest) with
          | some p => some (.int (p.1 : Int), p.2)
          | none => none
      else none

/-- Parse the items of a non-empty sequence up to the closing
bracket. -/
def parseItems : Nat → List Char → Option (List YVal × List Char)
  | 0, _ => none
  | f + 1, cs =>
    match parseVal f cs with
    | some (v, r) =>
      if (skipWs r).head? = some ']' then some ([v], (skipWs r).tail)
      else if (skipWs r).head? = some ',' then
        match parseItems f (skipWs (skipWs r).tail) with
        | some p => some (v :: p.1, p.2)
        | none => none
      else none
    | none => none

/-- Parse the entries of a non-empty mapping block up to the closing
brace, starting at a key. -/
def parseEntries : Nat → List Char → Option (List (String × YVal) × List Char)
  | 0, _ => none
  | f + 1, cs =>
    let ks := cs.takeWhile isKeyChar
    if ks.isEmpty then none
    else
      match skipWs (cs.drop ks.length) with
      | c2 :: r2 =>
        if c2 = '=' then
          match parseVal f (skipWs r2) with
          | some (v, r3) =>
            if (skipWs r3).head? = some '\x7d' then some ([(⟨ks⟩, v)], (skipWs r3).tail)
            else
              match parseEntries f (skipWs r3) with
              | some p => some ((⟨ks⟩, v) :: p.1, p.2)
              | none => none
          | none => none
        else none
      | [] => none

end

/-! ### Supporting lemmas for the round-trip proof -/

/-- The rest of the stream after a serialized value, in the contexts
the serializer creates: empty, or starting with a comma, a closing
bracket, or a newline.  Needed so that a digit run is known to end. -/
def restOk : List Char → Bool
  | [] => true
  | c :: _ => c = ',' || c = ']' || c = '\n'

theorem skipWs_newline (l : List Char) : skipWs ('\n' :: l) = skipWs l := by
  simp [skipWs, isWsChar]

theorem skipWs_spaces (n : Nat) (l : List Char) :
    skipWs (List.replicate n ' ' ++ l) = skipWs l := by
  induction n with
  | zero => rfl
  | succ n ih => simp [List.replicate_succ, skipWs, isWsChar, ih]

theorem skipWs_not_ws (c : Char) (l : List Char) (h : isWsChar c = false) :
    skipWs (c :: l) = c :: l := by
  simp [skipWs, h]

theorem mk_data (s : String) : String.mk s.data = s := by
  cases s
  rfl

theorem takeWhile_all_append (p : Char → Bool) (l : List Char)
    (hl : ∀ c ∈ l, p c = true) (c : Char) (hc : p c = false) (r : List Char) :
    (l ++ c :: r).takeWhile p = l := by
  induction l with
  | nil => simp [List.takeWhile, hc]
  | cons b bs ih =>
    rw [List.cons_append, List.takeWhile_cons]
    rw [hl b (List.mem_cons_self b bs)]
    simp only [if_true]
    rw [ih (fun x hx => hl x (List.mem_cons_of_mem _ hx))]

theorem takeWhile_all (p : Char → Bool) (l : List Char) (hl : ∀ c ∈ l, p c = true) :
    l.takeWhile p = l := by
  induction l with
  | nil => rfl
  | cons b bs ih =>
    rw [List.takeWhile_cons, hl b (List.mem_cons_self b bs)]
    simp only [if_true]
    rw [ih (fun x hx => hl x (List.mem_cons_of_mem _ hx))]

/-- A digit run followed by a serializer rest (empty, comma, bracket
or newline) is cut exactly at the run. -/
theorem takeWhile_digits_restOk (l rest : List Char) (hl : ∀ c ∈ l, c.isDigit = true)
    (hr : restOk rest = true) : (l ++ rest).takeWhile Char.isDigit = l := by
  cases rest with
  | nil =>
    rw [List.append_nil]
    exact takeWhile_all Char.isDigit l hl
  | cons c t =>
    have hc : Char.isDigit c = false := by
      simp [restOk] at hr
      rcases hr with (rfl | rfl) | rfl <;> decide
    exact takeWhile_all_append Char.isDigit l hl c hc t

theorem parseExpTail_restOk (rest : List Char) (hr : restOk rest = true) :
    parseExpTail rest = none := by
  cases rest with
  | nil => rfl
  | cons c t =>
    have hc : ¬(c = 'e') := by
      simp [restOk] at hr
      rcases hr with (rfl | rfl) | rfl <;> decide
    simp only [parseExpTail]
    rw [if_neg hc]

theorem parseFloatTail_restOk (rest : List Char) (hr : restOk rest = true) :
    parseFloatTail rest = none := by
  cases rest with
  | nil => rfl
  | cons c t =>
    have hc : ¬(c = '.') := by
      simp [restOk] at hr
      rcases hr with (rfl | rfl) | rfl <;> decide
    simp only [parseFloatTail]
    rw [if_neg hc]
    exact parseExpTail_restOk (c :: t) hr

theorem parseExpTail_tok (s : Char) (es rest : List Char) (hs : isExpSign s = true)
    (hne : es ≠ []) (hd : ∀ c ∈ es, c.isDigit = true) (hr : restOk rest = true) :
    parseExpTail ('e' :: (s :: (es ++ rest))) = some ('e' :: (s :: es), rest) := by
  simp only [parseExpTail]
  rw [if_pos trivial]
  rw [if_pos hs]
  rw [takeWhile_digits_restOk es rest hd hr]
  rw [if_neg (fun hemp => hne (by simpa using hemp))]
  rw [List.drop_left]

theorem parseFloatTail_frac (ds2 e rest : List Char) (h2ne : ds2 ≠ [])
    (h2d : ∀ c ∈ ds2, c.isDigit = true) (he : ExpTok e) (hr : restOk rest = true) :
    parseFloatTail ('.' :: (ds2 ++ (e ++ rest))) = some ('.' :: (ds2 ++ e), rest) := by
  cases he with
  | absent =>
    simp only [List.nil_append, List.append_nil]
    simp only [parseFloatTail]
    rw [if_pos trivial]
    rw [takeWhile_digits_restOk ds2 rest h2d hr]
    rw [if_neg (fun hemp => h2ne (by simpa using hemp))]
    rw [List.drop_left]
    rw [parseExpTail_restOk rest hr]
  | signed es2s es2 hs2 hne2 hd2 =>
    simp only [List.cons_append]
    simp only [parseFloatTail]
    rw [if_pos trivial]
    rw [takeWhile_all_append Char.isDigit ds2 h2d 'e' (by decide) _]
    rw [if_neg (fun hemp => h2ne (by simpa using hemp))]
    rw [List.drop_left]
    rw [parseExpTail_tok es2s es2 rest hs2 hne2 hd2 hr]

theorem parseFloatTail_exp (s : Char) (es rest : List Char) (hs : isExpSign s = true)
    (hne : es ≠ []) (hd : ∀ c ∈ es, c.isDigit = true) (hr : restOk rest = true) :
    parseFloatTail ('e' :: (s :: (es ++ rest))) = some ('e' :: (s :: es), rest) := by
  rw [show parseFloatTail ('e' :: (s :: (es ++ rest))) =
    parseExpTail ('e' :: (s :: (es ++ rest))) from rfl]
  exact parseExpTail_tok s es rest hs hne hd hr

theorem isDigit_not_ws (c : Char) (h : c.isDigit = true) : isWsChar c = false := by
  unfold isWsChar
  by_cases h1 : c = ' '
  · subst h1; exact absurd h (by decide)
  · by_cases h2 : c = '\n'
    · subst h2; exact absurd h (by decide)
    · simp [h1, h2]

theorem keyChar_not_ws (c : Char) (h : isKeyChar c = true) : isWsChar c = false := by
  unfold isWsChar
  by_cases h1 : c = ' '
  · subst h1; exact absurd h (by decide)
  · by_cases h2 : c = '\n'
    · subst h2; exact absurd h (by decide)
    · simp [h1, h2]

theorem keyChar_ne_rbrace (c : Char) (h : isKeyChar c = true) : c ≠ '\x7d' := by
  intro hc; subst hc; exact absurd h (by decide)

theorem digitChar_toNat (n : Nat) (h : n < 10) : (digitChar n).toNat - 48 = n := by
  interval_cases n <;> decide

/-- The digit-run value with an accumulator. -/
def natValAcc (a : Nat) (l : List Char) : Nat :=
  l.foldl (fun a c => 10 * a + (c.toNat - 48)) a

theorem natValAcc_append (a : Nat) (l1 l2 : List Char) :
    natValAcc a (l1 ++ l2) = natValAcc (natValAcc a l1) l2 := by
  unfold natValAcc
  rw [List.foldl_append]

theorem parseNatAcc_digits (l : List Char) (hl : ∀ c ∈ l, c.isDigit = true) :
    ∀ (a : Nat) (r : List Char), parseNatAcc a (l ++ r) = parseNatAcc (natValAcc a l) r := by
  induction l with
  | nil => intro a r; rfl
  | cons c cs ih =>
    intro a r
    rw [List.cons_append]
    have h1 : parseNatAcc a (c :: (cs ++ r)) =
        parseNatAcc (10 * a + (c.toNat - 48)) (cs ++ r) := by
      simp only [parseNatAcc]
      rw [if_pos (hl c (List.mem_cons_self c cs))]
    rw [h1, ih (fun x hx => hl x (List.mem_cons_of_mem _ hx))]
    rfl

theorem parseNatAcc_stop (r : List Char) (h : restOk r = true) (a : Nat) :
    parseNatAcc a r = (a, r) := by
  cases r with
  | nil => rfl
  | cons c cs =>
    unfold restOk at h
    simp at h
    unfold parseNatAcc
    rcases h with (rfl | rfl) | rfl <;> rfl

theorem natChars_cons : ∀ (f n : Nat), n < f → ∃ c r, natChars f n = c :: r ∧ c.isDigit = true := by
  intro f
  induction f with
  | zero => intro n h; omega
  | succ f ih =>
    intro n h
    unfold natChars
    by_cases h10 : n < 10
    · exact ⟨digitChar n, [], by rw [if_pos h10], digitChar_isDigit n h10⟩
    · obtain ⟨c, r, hcr, hd⟩ := ih (n / 10) (by omega)
      exact ⟨c, r ++ [digitChar (n % 10)], by rw [if_neg h10, hcr]; rfl, hd⟩

theorem natValAcc_natChars : ∀ (n f a : Nat), n < f →
    natValAcc a (natChars f n) = a * 10 ^ (natChars f n).length + n := by
  intro n
  induction n using Nat.strong_induction_on with
  | _ n ih =>
    intro f a hf
    cases f with
    | zero => omega
    | succ f =>
      unfold natChars
      by_cases h10 : n < 10
      · rw [if_pos h10]
        unfold natValAcc
        simp [List.foldl, digitChar_toNat n h10]
        omega
      · rw [if_neg h10]
        have hdiv : n / 10 < n := Nat.div_lt_self (by omega) (by omega)
        have hrec := ih (n / 10) hdiv f a (by omega)
        rw [natValAcc_append, hrec]
        rw [show ∀ b : Nat, natValAcc b [digitChar (n % 10)] =
          10 * b + ((digitChar (n % 10)).toNat - 48) from fun b => rfl]
        rw [List.length_append, List.length_cons, List.length_nil]
        rw [digitChar_toNat _ (Nat.mod_lt n (by omega))]
        rw [show (natChars f (n / 10)).length + (0 + 1) =
          (natChars f (n / 10)).length + 1 from by omega]
        rw [pow_succ, ← mul_assoc]
        set m := a * 10 ^ (natChars f (n / 10)).length
        omega

theorem parseNat_full (n f : Nat) (rest : List Char) (hf : n < f) (hr : restOk rest = true) :
    parseNatChars (natChars f n ++ rest) = some (n, rest) := by
  obtain ⟨c, r, hcr, hd⟩ := natChars_cons f n hf
  rw [hcr]
  rw [List.cons_append]
  rw [show parseNatChars (c :: (r ++ rest)) =
    (if c.isDigit = true then some (parseNatAcc 0 (c :: (r ++ rest))) else none) from rfl]
  rw [if_pos hd]
  rw [← List.cons_append, ← hcr]
  rw [parseNatAcc_digits _ (natChars_all_digits f n)]
  rw [parseNatAcc_stop rest hr]
  rw [natValAcc_natChars n f 0 hf]
  simp

theorem parseStrBody_escape : ∀ (l : List Char) (rest : List Char),
    parseStrBody (escapeSpec l ++ '"' :: rest) = some (l, rest) := by
  intro l
  induction l with
  | nil =>
    intro rest
    rw [show escapeSpec [] = [] from rfl, List.nil_append]
    unfold parseStrBody
    rw [if_pos rfl]
  | cons c cs ih =>
    intro rest
    unfold escapeSpec
    by_cases hb : c = '\\'
    · subst hb
      rw [if_pos rfl]
      rw [show (['\\', '\\'] ++ escapeSpec cs) ++ '"' :: rest =
        '\\' :: '\\' :: (escapeSpec cs ++ '"' :: rest) from by simp]
      unfold parseStrBody
      rw [if_neg (by decide), if_pos rfl]
      dsimp only
      rw [ih rest]
      rfl
    · by_cases hq : c = '"'
      · subst hq
        rw [if_neg (by decide), if_pos rfl]
        rw [show (['\\', '"'] ++ escapeSpec cs) ++ '"' :: rest =
          '\\' :: '"' :: (escapeSpec cs ++ '"' :: rest) from by simp]
        unfold parseStrBody
        rw [if_neg (by decide), if_pos rfl]
        try dsimp only
        rw [ih rest]
        rfl
      · rw [if_neg hb, if_neg hq]
        rw [show ([c] ++ escapeSpec cs) ++ '"' :: rest =
          c :: (escapeSpec cs ++ '"' :: rest) from by simp]
        unfold parseStrBody
        rw [if_neg hq, if_neg hb]
        try dsimp only
        rw [ih rest]
        rfl

/-- The fragment of the value universe on which round-tripping is
claimed after amendment: no null anywhere, and every mapping key a
non-empty bare identifier (alphanumeric, underscore or dash). -/
inductive GoodVal : YVal → Prop where
  | bool (b : Bool) : GoodVal (.bool b)
  | int (n : Int) : GoodVal (.int n)
  | float (m : String) : FloatTok m.data → GoodVal (.float m)
  | str (s : String) : GoodVal (.str s)
  | list (xs : List YVal) : (∀ x ∈ xs, GoodVal x) → GoodVal (.list xs)
  | dict (kvs : List (String × YVal)) :
      (∀ kv ∈ kvs, kv.1.data ≠ [] ∧ ∀ c ∈ kv.1.data, isKeyChar c = true) →
      (∀ kv ∈ kvs, GoodVal kv.2) →
      GoodVal (.dict kvs)

theorem yval_sizeOf_pos (v : YVal) : 0 < sizeOf v := by
  cases v <;> simp

theorem list_sizeOf_pos {α : Type} [SizeOf α] (l : List α) : 0 < sizeOf l := by
  cases l with
  | nil => simp
  | cons a t => simp

/-- The first character of a serialized good value: a quote, bracket,
brace, bare-word initial, minus sign, or digit; never layout, never a
closing bracket or brace. -/
theorem ser_head (v : YVal) (i : Nat) (h : GoodVal v) :
    ∃ c r, (to_hcl_value v i).data = c :: r ∧
      (c = '"' ∨ c = '[' ∨ c = '\x7b' ∨ c = 't' ∨ c = 'f' ∨ c = '-' ∨ c.isDigit = true) := by
  cases h with
  | bool b =>
    cases b
    · exact ⟨'f', ['a', 'l', 's', 'e'],
        by rw [show to_hcl_value (.bool false) i = "false" from by rw [to_hcl_value.eq_def]; rfl],
        by tauto⟩
    · exact ⟨'t', ['r', 'u', 'e'],
        by rw [show to_hcl_value (.bool true) i = "true" from by rw [to_hcl_value.eq_def]; rfl],
        by tauto⟩
  | int n =>
    cases n with
    | ofNat m =>
      obtain ⟨c, r, hcr, hd⟩ := natChars_cons (m + 1) m (by omega)
      exact ⟨c, r,
        by rw [show to_hcl_value (.int (.ofNat m)) i = natStr m from by
             rw [to_hcl_value.eq_def]; rfl];
           exact hcr,
        by tauto⟩
    | negSucc m =>
      refine ⟨'-', natChars (m + 2) (m + 1), ?_, by tauto⟩
      rw [show to_hcl_value (.int (.negSucc m)) i = "-" ++ natStr (m + 1) from by
        rw [to_hcl_value.eq_def]; rfl]
      rw [String.data_append]
      rfl
  | float fm hfm =>
    rw [show to_hcl_value (.float fm) i = fm from by rw [to_hcl_value.eq_def]]
    rcases floatTok_cases fm.data hfm with
      ⟨sgn, ds, ds2, e, hsgn, hdne, hdd, h2ne, h2d, he, hEq⟩ |
      ⟨sgn, ds, s, es, hsgn, hdne, hdd, hsg, hene, hed, hEq⟩
    · rcases hsgn with rfl | rfl
      · cases ds with
        | nil => exact absurd rfl hdne
        | cons d dt =>
          refine ⟨d, dt ++ ('.' :: (ds2 ++ e)), ?_, ?_⟩
          · rw [hEq]
            simp
          · have hd : d.isDigit = true := hdd d (List.mem_cons_self d dt)
            tauto
      · refine ⟨'-', ds ++ ('.' :: (ds2 ++ e)), ?_, by tauto⟩
        rw [hEq]
        simp
    · rcases hsgn with rfl | rfl
      · cases ds with
        | nil => exact absurd rfl hdne
        | cons d dt =>
          refine ⟨d, dt ++ ('e' :: (s :: es)), ?_, ?_⟩
          · rw [hEq]
            simp
          · have hd : d.isDigit = true := hdd d (List.mem_cons_self d dt)
            tauto
      · refine ⟨'-', ds ++ ('e' :: (s :: es)), ?_, by tauto⟩
        rw [hEq]
        simp
  | str s =>
    refine ⟨'"', escapeSpec s.data ++ ['"'], ?_, by tauto⟩
    rw [c5_string_escaping]
    rw [String.data_append, String.data_append]
    rfl
  | list xs hxs =>
    rw [to_hcl_value_list]
    by_cases he : xs.isEmpty
    · rw [if_pos he]
      exact ⟨'[', [']'], rfl, by tauto⟩
    · rw [if_neg he]
      refine ⟨'[', (joinSep ", " (xs.map (fun x => to_hcl_value x (i + 2)))).data ++ [']'],
        ?_, by tauto⟩
      rw [String.data_append, String.data_append]
      rfl
  | dict kvs hk hkvs =>
    rw [to_hcl_value_dict]
    by_cases he : kvs.isEmpty
    · rw [if_pos he]
      exact ⟨'\x7b', ['\x7d'], rfl, by tauto⟩
    · rw [if_neg he]
      refine ⟨'\x7b', '\n' ::
        ((joinSep "\n" (kvs.map (fun kv =>
           spaces (i + 2) ++ kv.1 ++ " = " ++ to_hcl_value kv.2 (i + 2)))).data ++
          ('\n' :: (spaces i).data ++ ['\x7d'])), ?_, by tauto⟩
      simp [String.data_append, List.append_assoc]

theorem startChar_not_ws (c : Char)
    (h : c = '"' ∨ c = '[' ∨ c = '\x7b' ∨ c = 't' ∨ c = 'f' ∨ c = '-' ∨ c.isDigit = true) :
    isWsChar c = false := by
  rcases h with rfl | rfl | rfl | rfl | rfl | rfl | h
  · rfl
  · rfl
  · rfl
  · rfl
  · rfl
  · rfl
  · exact isDigit_not_ws c h

theorem startChar_ne_rbracket (c : Char)
    (h : c = '"' ∨ c = '[' ∨ c = '\x7b' ∨ c = 't' ∨ c = 'f' ∨ c = '-' ∨ c.isDigit = true) :
    c ≠ ']' := by
  rcases h with rfl | rfl | rfl | rfl | rfl | rfl | h
  · decide
  · decide
  · decide
  · decide
  · decide
  · decide
  · intro hc; subst hc; exact absurd h (by decide)

theorem startChar_ne_rbrace (c : Char)
    (h : c = '"' ∨ c = '[' ∨ c = '\x7b' ∨ c = 't' ∨ c = 'f' ∨ c = '-' ∨ c.isDigit = true) :
    c ≠ '\x7d' := by
  rcases h with rfl | rfl | rfl | rfl | rfl | rfl | h
  · decide
  · decide
  · decide
  · decide
  · decide
  · decide
  · intro hc; subst hc; exact absurd h (by decide)

/-- Layout characters as a list. -/
def spacesChars (n : Nat) : List Char := List.replicate n ' '

theorem spaces_data (n : Nat) : (spaces n).data = spacesChars n := rfl

/-- One serialized mapping entry: key, space equals space, value. -/
def entryChars (i : Nat) (k : String) (v : YVal) : List Char :=
  k.data ++ ' ' :: '=' :: ' ' :: (to_hcl_value v i).data

/-- The serialized entry block of a mapping without its first indent:
entries separated by a newline and the indent of the following key. -/
def entriesChars (i : Nat) : List (String × YVal) → List Char
  | [] => []
  | [kv] => entryChars i kv.1 kv.2
  | kv :: kvs => entryChars i kv.1 kv.2 ++ '\n' :: (spacesChars i ++ entriesChars i kvs)

theorem joinSep_entries_data (i : Nat) : ∀ (kvs : List (String × YVal)), kvs ≠ [] →
    (joinSep "\n" (kvs.map (fun kv => spaces i ++ kv.1 ++ " = " ++ to_hcl_value kv.2 i))).data =
      spacesChars i ++ entriesChars i kvs := by
  intro kvs
  induction kvs with
  | nil => intro h; exact absurd rfl h
  | cons kv kvs ih =>
    intro _
    cases kvs with
    | nil =>
      simp only [List.map, joinSep, entriesChars, entryChars]
      simp [String.data_append, spaces_data, List.append_assoc]
    | cons kv2 kvs2 =>
      have ih2 := ih (by simp)
      simp only [List.map_cons] at ih2 ⊢
      rw [show ∀ (x : String) (y : String) (ys : List String),
        joinSep "\n" (x :: y :: ys) = x ++ "\n" ++ joinSep "\n" (y :: ys) from
        fun x y ys => rfl]
      rw [String.data_append, String.data_append]
      rw [ih2]
      rw [show entriesChars i (kv :: kv2 :: kvs2) =
        entryChars i kv.1 kv.2 ++ '\n' :: (spacesChars i ++ entriesChars i (kv2 :: kvs2)) from rfl]
      simp [String.data_append, spaces_data, entryChars, List.append_assoc]

theorem parseVal_quote (f : Nat) (rest : List Char) :
    parseVal (f + 1) ('"' :: rest) =
      match parseStrBody rest with
      | some p => some (.str ⟨p.1⟩, p.2)
      | none => none := rfl

theorem parseVal_true (f : Nat) (rest : List Char) :
    parseVal (f + 1) ('t' :: 'r' :: 'u' :: 'e' :: rest) = some (.bool true, rest) := rfl

theorem parseVal_false (f : Nat) (rest : List Char) :
    parseVal (f + 1) ('f' :: 'a' :: 'l' :: 's' :: 'e' :: rest) = some (.bool false, rest) := rfl

theorem parseVal_lbracket (f : Nat) (rest : List Char) :
    parseVal (f + 1) ('[' :: rest) =
      (if rest.head? = some ']' then some (.list [], rest.tail)
       else
         match parseItems f rest with
         | some p => some (.list p.1, p.2)
         | none => none) := rfl

theorem parseVal_lbrace (f : Nat) (rest : List Char) :
    parseVal (f + 1) ('\x7b' :: rest) =
      (if (skipWs rest).head? = some '\x7d' then some (.dict [], (skipWs rest).tail)
       else
         match parseEntries f (skipWs rest) with
         | some p => some (.dict p.1, p.2)
         | none => none) := rfl

theorem parseVal_minus (f : Nat) (rest : List Char) :
    parseVal (f + 1) ('-' :: rest) =
      (if (rest.takeWhile Char.isDigit).isEmpty then none
       else
         match parseFloatTail (rest.drop (rest.takeWhile Char.isDigit).length) with
         | some q => some (.float ⟨'-' :: (rest.takeWhile Char.isDigit ++ q.1)⟩, q.2)
         | none =>
           match parseNatChars rest with
           | some p => some (.int (-(p.1 : Int)), p.2)
           | none => none) := rfl

theorem parseVal_cons (f : Nat) (c : Char) (rest : List Char) :
    parseVal (f + 1) (c :: rest) =
      (if c = '"' then
        match parseStrBody rest with
        | some p => some (.str ⟨p.1⟩, p.2)
        | none => none
      else if c = '[' then
        if rest.head? = some ']' then some (.list [], rest.tail)
        else
          match parseItems f rest with
          | some p => some (.list p.1, p.2)
          | none => none
      else if c = '\x7b' then
        if (skipWs rest).head? = some '\x7d' then some (.dict [], (skipWs rest).tail)
        else
          match parseEntries f (skipWs rest) with
          | some p => some (.dict p.1, p.2)
          | none => none
      else if c = 't' then
        match rest with
        | 'r' :: 'u' :: 'e' :: r => some (.bool true, r)
        | _ => none
      else if c = 'f' then
        match rest with
        | 'a' :: 'l' :: 's' :: 'e' :: r => some (.bool false, r)
        | _ => none
      else if c = '-' then
        if (rest.takeWhile Char.isDigit).isEmpty then none
        else
          match parseFloatTail (rest.drop (rest.takeWhile Char.isDigit).length) with
          | some q => some (.float ⟨'-' :: (rest.takeWhile Char.isDigit ++ q.1)⟩, q.2)
          | none =>
            match parseNatChars rest with
            | some p => some (.int (-(p.1 : Int)), p.2)
            | none => none
      else if c.isDigit then
        match parseFloatTail ((c :: rest).drop ((c :: rest).takeWhile Char.isDigit).length) with
        | some q => some (.float ⟨(c :: rest).takeWhile Char.isDigit ++ q.1⟩, q.2)
        | none =>
          match parseNatChars (c :: rest) with
          | some p => some (.int (p.1 : Int), p.2)
          | none => none
      else none) := rfl

theorem parseVal_digit (f : Nat) (c : Char) (rest : List Char) (hc : c.isDigit = true) :
    parseVal (f + 1) (c :: rest) =
      (match parseFloatTail ((c :: rest).drop ((c :: rest).takeWhile Char.isDigit).length) with
       | some q => some (.float ⟨(c :: rest).takeWhile Char.isDigit ++ q.1⟩, q.2)
       | none =>
         match parseNatChars (c :: rest) with
         | some p => some (.int (p.1 : Int), p.2)
         | none => none) := by
  have h1 : ¬(c = '"') := fun h => by subst h; exact absurd hc (by decide)
  have h2 : ¬(c = '[') := fun h => by subst h; exact absurd hc (by decide)
  have h3 : ¬(c = '\x7b') := fun h => by subst h; exact absurd hc (by decide)
  have h4 : ¬(c = 't') := fun h => by subst h; exact absurd hc (by decide)
  have h5 : ¬(c = 'f') := fun h => by subst h; exact absurd hc (by decide)
  have h6 : ¬(c = '-') := fun h => by subst h; exact absurd hc (by decide)
  rw [parseVal_cons]
  rw [if_neg h1, if_neg h2, if_neg h3, if_neg h4, if_neg h5, if_neg h6, if_pos hc]

theorem parseItems_step (f : Nat) (cs : List Char) :
    parseItems (f + 1) cs =
      (match parseVal f cs with
       | some (v, r) =>
         if (skipWs r).head? = some ']' then some ([v], (skipWs r).tail)
         else if (skipWs r).head? = some ',' then
           match parseItems f (skipWs (skipWs r).tail) with
           | some p => some (v :: p.1, p.2)
           | none => none
         else none
       | none => none) := rfl

theorem parseEntries_step (f : Nat) (cs : List Char) :
    parseEntries (f + 1) cs =
      (let ks := cs.takeWhile isKeyChar
       if ks.isEmpty then none
       else
         match skipWs (cs.drop ks.length) with
         | c2 :: r2 =>
           if c2 = '=' then
             match parseVal f (skipWs r2) with
             | some (v, r3) =>
               if (skipWs r3).head? = some '\x7d' then some ([(⟨ks⟩, v)], (skipWs r3).tail)
               else
                 match parseEntries f (skipWs r3) with
                 | some p => some ((⟨ks⟩, v) :: p.1, p.2)
                 | none => none
             | none => none
           else none
         | [] => none) := rfl

theorem joinSep_items_head (x : YVal) (t : List YVal) (i : Nat) (hx : GoodVal x) :
    ∃ c m, (joinSep ", " ((x :: t).map (fun y => to_hcl_value y i))).data = c :: m ∧
      (c = '"' ∨ c = '[' ∨ c = '\x7b' ∨ c = 't' ∨ c = 'f' ∨ c = '-' ∨ c.isDigit = true) := by
  obtain ⟨c, r, hcr, hp⟩ := ser_head x i hx
  cases t with
  | nil =>
    exact ⟨c, r, by rw [show joinSep ", " ((x :: []).map (fun y => to_hcl_value y i)) =
      to_hcl_value x i from rfl]; exact hcr, hp⟩
  | cons y t2 =>
    refine ⟨c, r ++ (',' :: ' ' ::
      (joinSep ", " ((y :: t2).map (fun z => to_hcl_value z i))).data), ?_, hp⟩
    rw [show joinSep ", " ((x :: y :: t2).map (fun z => to_hcl_value z i)) =
      to_hcl_value x i ++ ", " ++ joinSep ", " ((y :: t2).map (fun z => to_hcl_value z i)) from rfl]
    rw [String.data_append, String.data_append, hcr]
    simp

theorem entriesChars_head (i : Nat) (kv : String × YVal) (t : List (String × YVal))
    (kc : Char) (kr : List Char) (hkd : kv.1.data = kc :: kr) :
    ∃ m, entriesChars i (kv :: t) = kc :: m := by
  cases t with
  | nil =>
    refine ⟨kr ++ ' ' :: '=' :: ' ' :: (to_hcl_value kv.2 i).data, ?_⟩
    rw [show entriesChars i [kv] = entryChars i kv.1 kv.2 from rfl]
    unfold entryChars
    rw [hkd]
    rfl
  | cons kv2 t2 =>
    refine ⟨kr ++ (' ' :: '=' :: ' ' :: (to_hcl_value kv.2 i).data ++
      '\n' :: (spacesChars i ++ entriesChars i (kv2 :: t2))), ?_⟩
    rw [show entriesChars i (kv :: kv2 :: t2) =
      entryChars i kv.1 kv.2 ++ '\n' :: (spacesChars i ++ entriesChars i (kv2 :: t2)) from rfl]
    unfold entryChars
    rw [hkd]
    simp

theorem skipWs_space (l : List Char) : skipWs (' ' :: l) = skipWs l := by
  simp [skipWs, isWsChar]

theorem skipWs_spacesChars (n : Nat) (l : List Char) :
    skipWs (spacesChars n ++ l) = skipWs l := skipWs_spaces n l

/-- Parsing is left inverse to serialization on the good fragment: with
fuel at least the size of the value, the parser recovers the value and
leaves the rest of the stream untouched.  Proved simultaneously for
values, sequence item lists, and mapping entry blocks by strong
induction on the fuel. -/
theorem parse_sound : ∀ f : Nat,
    (∀ (v : YVal) (i : Nat) (rest : List Char), GoodVal v → sizeOf v ≤ f → restOk rest = true →
       parseVal f ((to_hcl_value v i).data ++ rest) = some (v, rest)) ∧
    (∀ (xs : List YVal) (i : Nat) (rest : List Char), (∀ x ∈ xs, GoodVal x) → xs ≠ [] →
       sizeOf xs ≤ f →
       parseItems f ((joinSep ", " (xs.map (fun x => to_hcl_value x i))).data ++ ']' :: rest) =
         some (xs, rest)) ∧
    (∀ (es : List (String × YVal)) (i j : Nat) (rest : List Char),
       (∀ kv ∈ es, kv.1.data ≠ [] ∧ ∀ c ∈ kv.1.data, isKeyChar c = true) →
       (∀ kv ∈ es, GoodVal kv.2) → es ≠ [] → sizeOf es ≤ f →
       parseEntries f (entriesChars i es ++ '\n' :: (spacesChars j ++ '\x7d' :: rest)) =
         some (es, rest)) := by
  intro f
  induction f using Nat.strong_induction_on with
  | _ f IH =>
    refine ⟨?_, ?_, ?_⟩
    · -- values
      intro v i rest hg hs hr
      have hpos := yval_sizeOf_pos v
      cases f with
      | zero => omega
      | succ f =>
        have IHf := IH f (Nat.lt_succ_self f)
        cases hg with
        | bool b =>
          cases b
          · rw [show to_hcl_value (.bool false) i = "false" from by
              rw [to_hcl_value.eq_def]; rfl]
            rw [show ("false" : String).data ++ rest =
              'f' :: 'a' :: 'l' :: 's' :: 'e' :: rest from rfl]
            exact parseVal_false f rest
          · rw [show to_hcl_value (.bool true) i = "true" from by
              rw [to_hcl_value.eq_def]; rfl]
            rw [show ("true" : String).data ++ rest = 't' :: 'r' :: 'u' :: 'e' :: rest from rfl]
            exact parseVal_true f rest
        | int n =>
          cases n with
          | ofNat m =>
            rw [show to_hcl_value (.int (.ofNat m)) i = natStr m from by
              rw [to_hcl_value.eq_def]; rfl]
            obtain ⟨c, r, hcr, hd⟩ := natChars_cons (m + 1) m (by omega)
            rw [show (natStr m).data = natChars (m + 1) m from rfl, hcr, List.cons_append]
            rw [parseVal_digit f c (r ++ rest) hd]
            rw [← List.cons_append, ← hcr]
            rw [takeWhile_digits_restOk (natChars (m + 1) m) rest
              (natChars_all_digits (m + 1) m) hr]
            rw [List.drop_left]
            rw [parseFloatTail_restOk rest hr]
            dsimp only
            rw [parseNat_full m (m + 1) rest (by omega) hr]
            rfl
          | negSucc m =>
            rw [show to_hcl_value (.int (.negSucc m)) i = "-" ++ natStr (m + 1) from by
              rw [to_hcl_value.eq_def]; rfl]
            rw [String.data_append]
            rw [show (("-" : String).data ++ (natStr (m + 1)).data) ++ rest =
              '-' :: ((natStr (m + 1)).data ++ rest) from by simp]
            rw [parseVal_minus]
            rw [show (natStr (m + 1)).data = natChars (m + 2) (m + 1) from rfl]
            rw [takeWhile_digits_restOk (natChars (m + 2) (m + 1)) rest
              (natChars_all_digits (m + 2) (m + 1)) hr]
            rw [if_neg (by
              obtain ⟨c, r, hcr, _⟩ := natChars_cons (m + 2) (m + 1) (by omega)
              rw [hcr]
              simp)]
            rw [List.drop_left]
            rw [parseFloatTail_restOk rest hr]
            dsimp only
            rw [parseNat_full (m + 1) (m + 2) rest (by omega) hr]
            dsimp only
            rw [show (Int.negSucc m) = -((m + 1 : Nat) : Int) from by
              rw [Int.negSucc_eq]; simp]
        | float fm hfm =>
          rw [show to_hcl_value (.float fm) i = fm from by rw [to_hcl_value.eq_def]]
          rcases floatTok_cases fm.data hfm with
            ⟨sgn, ds, ds2, e, hsgn, hdne, hdd, h2ne, h2d, he, hEq⟩ |
            ⟨sgn, ds, s, es, hsgn, hdne, hdd, hsg, hene, hed, hEq⟩
          · rcases hsgn with rfl | rfl
            · cases ds with
              | nil => exact absurd rfl hdne
              | cons d dt =>
                rw [hEq]
                simp only [List.nil_append, List.cons_append, List.append_assoc]
                rw [parseVal_digit f d _ (hdd d (List.mem_cons_self d dt))]
                rw [← List.cons_append d dt ('.' :: (ds2 ++ (e ++ rest)))]
                rw [takeWhile_all_append Char.isDigit (d :: dt) hdd '.' (by decide) _]
                rw [List.drop_left]
                rw [parseFloatTail_frac ds2 e rest h2ne h2d he hr]
                dsimp only
                rw [show (d :: dt) ++ ('.' :: (ds2 ++ e)) = fm.data from by rw [hEq]; simp]
            · rw [hEq]
              simp only [List.singleton_append, List.nil_append, List.cons_append,
                List.append_assoc]
              rw [parseVal_minus]
              rw [takeWhile_all_append Char.isDigit ds hdd '.' (by decide) _]
              rw [if_neg (fun hemp => hdne (by simpa using hemp))]
              rw [List.drop_left]
              rw [parseFloatTail_frac ds2 e rest h2ne h2d he hr]
              dsimp only
              rw [show '-' :: (ds ++ ('.' :: (ds2 ++ e))) = fm.data from by rw [hEq]; simp]
          · rcases hsgn with rfl | rfl
            · cases ds with
              | nil => exact absurd rfl hdne
              | cons d dt =>
                rw [hEq]
                simp only [List.nil_append, List.cons_append, List.append_assoc]
                rw [parseVal_digit f d _ (hdd d (List.mem_cons_self d dt))]
                rw [← List.cons_append d dt ('e' :: (s :: (es ++ rest)))]
                rw [takeWhile_all_append Char.isDigit (d :: dt) hdd 'e' (by decide) _]
                rw [List.drop_left]
                rw [parseFloatTail_exp s es rest hsg hene hed hr]
                dsimp only
                rw [show (d :: dt) ++ ('e' :: (s :: es)) = fm.data from by rw [hEq]; simp]
            · rw [hEq]
              simp only [List.singleton_append, List.nil_append, List.cons_append,
                List.append_assoc]
              rw [parseVal_minus]
              rw [takeWhile_all_append Char.isDigit ds hdd 'e' (by decide) _]
              rw [if_neg (fun hemp => hdne (by simpa using hemp))]
              rw [List.drop_left]
              rw [parseFloatTail_exp s es rest hsg hene hed hr]
              dsimp only
              rw [show '-' :: (ds ++ ('e' :: (s :: es))) = fm.data from by rw [hEq]; simp]
        | str s =>
          rw [c5_string_escaping]
          rw [show (("\"" ++ String.mk (escapeSpec s.data) ++ "\"" : String)).data ++ rest =
            '"' :: (escapeSpec s.data ++ '"' :: rest) from by
              simp [String.data_append]]
          rw [parseVal_quote]
          rw [parseStrBody_escape s.data rest]
        | list xs hxs =>
          cases xs with
          | nil =>
            rw [to_hcl_value_list, if_pos (show ([] : List YVal).isEmpty = true from rfl)]
            rw [show ("[]" : String).data ++ rest = '[' :: ']' :: rest from rfl]
            rw [parseVal_lbracket]
            rw [if_pos (show ((']' :: rest : List Char)).head? = some ']' from rfl)]
            rfl
          | cons x t =>
            rw [to_hcl_value_list, if_neg (by simp)]
            obtain ⟨c, m, hcm, hcp⟩ :=
              joinSep_items_head x t (i + 2) (hxs x (List.mem_cons_self x t))
            rw [show (("[" ++ joinSep ", " ((x :: t).map (fun x => to_hcl_value x (i + 2))) ++
                "]" : String)).data ++ rest =
              '[' :: ((joinSep ", " ((x :: t).map (fun x => to_hcl_value x (i + 2)))).data ++
                ']' :: rest) from by simp [String.data_append]]
            rw [parseVal_lbracket]
            have hhead : ((joinSep ", " ((x :: t).map (fun x => to_hcl_value x (i + 2)))).data ++
                ']' :: rest).head? = some c := by
              rw [hcm]; rfl
            rw [if_neg (by
              rw [hhead]
              intro hcon
              exact startChar_ne_rbracket c hcp (Option.some.inj hcon))]
            have hsz : sizeOf (x :: t) ≤ f := by
              simp only [YVal.list.sizeOf_spec] at hs
              omega
            rw [IHf.2.1 (x :: t) (i + 2) rest hxs (by simp) hsz]
        | dict kvs hk hg2 =>
          cases kvs with
          | nil =>
            rw [to_hcl_value_dict,
              if_pos (show ([] : List (String × YVal)).isEmpty = true from rfl)]
            rw [show ("\x7b\x7d" : String).data ++ rest = '\x7b' :: '\x7d' :: rest from rfl]
            rw [parseVal_lbrace]
            rw [skipWs_not_ws '\x7d' rest (by decide)]
            rw [if_pos (show (('\x7d' :: rest : List Char)).head? = some '\x7d' from rfl)]
            rfl
          | cons kv t =>
            have hJ := joinSep_entries_data (i + 2) (kv :: t) (by simp)
            have hstream : (to_hcl_value (.dict (kv :: t)) i).data ++ rest =
                '\x7b' :: '\n' :: (spacesChars (i + 2) ++
                  (entriesChars (i + 2) (kv :: t) ++
                    ('\n' :: (spacesChars i ++ '\x7d' :: rest)))) := by
              rw [to_hcl_value_dict, if_neg (by simp)]
              rw [String.data_append, String.data_append, String.data_append,
                String.data_append]
              rw [show ("\x7b\n" : String).data = ['\x7b', '\n'] from rfl]
              rw [show ("\n" : String).data = ['\n'] from rfl]
              rw [show ("\x7d" : String).data = ['\x7d'] from rfl]
              rw [spaces_data, hJ]
              simp [List.append_assoc]
            rw [hstream, parseVal_lbrace]
            obtain ⟨hk1, hk2⟩ := hk kv (List.mem_cons_self kv t)
            cases hkd : kv.1.data with
            | nil => exact absurd hkd hk1
            | cons kc kr =>
              have hkc : isKeyChar kc = true :=
                hk2 kc (by rw [hkd]; exact List.mem_cons_self kc kr)
              obtain ⟨em, hem⟩ := entriesChars_head (i + 2) kv t kc kr hkd
              have hskip : skipWs ('\n' :: (spacesChars (i + 2) ++
                  (entriesChars (i + 2) (kv :: t) ++
                    ('\n' :: (spacesChars i ++ '\x7d' :: rest))))) =
                  entriesChars (i + 2) (kv :: t) ++
                    ('\n' :: (spacesChars i ++ '\x7d' :: rest)) := by
                rw [skipWs_newline, skipWs_spacesChars]
                rw [hem, List.cons_append, skipWs_not_ws kc _ (keyChar_not_ws kc hkc)]
              rw [hskip]
              have hhd : (entriesChars (i + 2) (kv :: t) ++
                  ('\n' :: (spacesChars i ++ '\x7d' :: rest))).head? = some kc := by
                rw [hem]; rfl
              rw [if_neg (by
                rw [hhd]
                intro hcon
                exact keyChar_ne_rbrace kc hkc (Option.some.inj hcon))]
              have hsz : sizeOf (kv :: t) ≤ f := by
                simp only [YVal.dict.sizeOf_spec] at hs
                omega
              rw [IHf.2.2 (kv :: t) (i + 2) i rest hk hg2 (by simp) hsz]
    · -- sequence items
      intro xs i rest hxs hne hs
      cases xs with
      | nil => exact absurd rfl hne
      | cons x t =>
        have h1 := yval_sizeOf_pos x
        have h2 := list_sizeOf_pos t
        simp only [List.cons.sizeOf_spec] at hs
        cases f with
        | zero => omega
        | succ f =>
          have IHf := IH f (Nat.lt_succ_self f)
          rw [parseItems_step]
          cases t with
          | nil =>
            rw [show joinSep ", " ([x].map (fun y => to_hcl_value y i)) =
              to_hcl_value x i from rfl]
            rw [IHf.1 x i (']' :: rest) (hxs x (List.mem_cons_self x []))
              (by omega) (by rfl)]
            dsimp only
            rw [skipWs_not_ws ']' rest (by decide)]
            rw [if_pos (show ((']' :: rest : List Char)).head? = some ']' from rfl)]
            rfl
          | cons y t2 =>
            rw [show joinSep ", " ((x :: y :: t2).map (fun z => to_hcl_value z i)) =
              to_hcl_value x i ++ ", " ++
                joinSep ", " ((y :: t2).map (fun z => to_hcl_value z i)) from rfl]
            rw [show ((to_hcl_value x i ++ ", " ++
                joinSep ", " ((y :: t2).map (fun z => to_hcl_value z i)) : String)).data ++
                ']' :: rest =
              (to_hcl_value x i).data ++ (',' :: ' ' ::
                ((joinSep ", " ((y :: t2).map (fun z => to_hcl_value z i))).data ++
                  ']' :: rest)) from by simp [String.data_append]]
            rw [IHf.1 x i _ (hxs x (List.mem_cons_self x (y :: t2))) (by omega) (by rfl)]
            dsimp only
            rw [skipWs_not_ws ',' _ (by decide)]
            rw [if_neg (by intro hcon; exact absurd (Option.some.inj hcon) (by decide))]
            rw [if_pos (show ((',' :: ' ' ::
              ((joinSep ", " ((y :: t2).map (fun z => to_hcl_value z i))).data ++
                ']' :: rest) : List Char)).head? = some ',' from rfl)]
            obtain ⟨c2, m2, hcm2, hcp2⟩ :=
              joinSep_items_head y t2 i (hxs y (List.mem_cons_of_mem x (List.mem_cons_self y t2)))
            rw [show (',' :: ' ' ::
                ((joinSep ", " ((y :: t2).map (fun z => to_hcl_value z i))).data ++
                  ']' :: rest)).tail = ' ' ::
                ((joinSep ", " ((y :: t2).map (fun z => to_hcl_value z i))).data ++
                  ']' :: rest) from rfl]
            rw [skipWs_space]
            rw [hcm2, List.cons_append, skipWs_not_ws c2 _ (startChar_not_ws c2 hcp2)]
            rw [← List.cons_append, ← hcm2]
            rw [IHf.2.1 (y :: t2) i rest
              (fun z hz => hxs z (List.mem_cons_of_mem x hz)) (by simp)
              (by simp only [List.cons.sizeOf_spec] at hs ⊢; omega)]
    · -- mapping entries
      intro es i j rest hkeys hgood hne hs
      cases es with
      | nil => exact absurd rfl hne
      | cons kv t =>
        obtain ⟨k, v⟩ := kv
        have h1 := yval_sizeOf_pos v
        have h2 := list_sizeOf_pos t
        simp only [List.cons.sizeOf_spec, Prod.mk.sizeOf_spec] at hs
        cases f with
        | zero => omega
        | succ f =>
          have IHf := IH f (Nat.lt_succ_self f)
          obtain ⟨hk1, hk2⟩ := hkeys (k, v) (List.mem_cons_self (k, v) t)
          have hkv : GoodVal v := hgood (k, v) (List.mem_cons_self (k, v) t)
          obtain ⟨cv, rv, hcv, hpv⟩ := ser_head v i hkv
          rw [parseEntries_step]
          cases t with
          | nil =>
            have hstream : entriesChars i [(k, v)] ++
                ('\n' :: (spacesChars j ++ '\x7d' :: rest)) =
                k.data ++ ' ' :: ('=' :: ' ' :: ((to_hcl_value v i).data ++
                  ('\n' :: (spacesChars j ++ '\x7d' :: rest)))) := by
              rw [show entriesChars i [(k, v)] = entryChars i k v from rfl]
              unfold entryChars
              simp [List.append_assoc]
            rw [hstream]
            rw [takeWhile_all_append isKeyChar k.data hk2 ' ' (by decide)]
            have hkne : (k.data.isEmpty = true) = False := by
              cases hkd : k.data with
              | nil => exact absurd hkd hk1
              | cons a b => simp
            simp only [hkne, if_false]
            rw [List.drop_left]
            rw [skipWs_space, skipWs_not_ws '=' _ (by decide)]
            dsimp only
            rw [if_pos (show ('=' : Char) = '=' from rfl)]
            rw [skipWs_space]
            rw [hcv, List.cons_append, skipWs_not_ws cv _ (startChar_not_ws cv hpv)]
            rw [← List.cons_append, ← hcv]
            rw [IHf.1 v i _ hkv (by omega) (by rfl)]
            dsimp only
            rw [skipWs_newline, skipWs_spacesChars, skipWs_not_ws '\x7d' rest (by decide)]
            rw [if_pos (show (('\x7d' :: rest : List Char)).head? = some '\x7d' from rfl)]
            rw [mk_data]
            rfl
          | cons kv2 t2 =>
            obtain ⟨hk21, hk22⟩ := hkeys kv2 (List.mem_cons_of_mem _ (List.mem_cons_self kv2 t2))
            cases hkd2 : kv2.1.data with
            | nil => exact absurd hkd2 hk21
            | cons kc2 kr2 =>
              have hkc2 : isKeyChar kc2 = true :=
                hk22 kc2 (by rw [hkd2]; exact List.mem_cons_self kc2 kr2)
              obtain ⟨em2, hem2⟩ := entriesChars_head i kv2 t2 kc2 kr2 hkd2
              have hstream : entriesChars i ((k, v) :: kv2 :: t2) ++
                  ('\n' :: (spacesChars j ++ '\x7d' :: rest)) =
                  k.data ++ ' ' :: ('=' :: ' ' :: ((to_hcl_value v i).data ++
                    ('\n' :: (spacesChars i ++ (entriesChars i (kv2 :: t2) ++
                      ('\n' :: (spacesChars j ++ '\x7d' :: rest))))))) := by
                rw [show entriesChars i ((k, v) :: kv2 :: t2) =
                  entryChars i k v ++ '\n' :: (spacesChars i ++ entriesChars i (kv2 :: t2))
                  from rfl]
                unfold entryChars
                simp [List.append_assoc]
              rw [hstream]
              rw [takeWhile_all_append isKeyChar k.data hk2 ' ' (by decide)]
              have hkne : (k.data.isEmpty = true) = False := by
                cases hkd : k.data with
                | nil => exact absurd hkd hk1
                | cons a b => simp
              simp only [hkne, if_false]
              rw [List.drop_left]
              rw [skipWs_space, skipWs_not_ws '=' _ (by decide)]
              dsimp only
              rw [if_pos (show ('=' : Char) = '=' from rfl)]
              rw [skipWs_space]
              rw [hcv, List.cons_append, skipWs_not_ws cv _ (startChar_not_ws cv hpv)]
              rw [← List.cons_append, ← hcv]
              rw [IHf.1 v i _ hkv (by omega) (by rfl)]
              dsimp only
              rw [skipWs_newline, skipWs_spacesChars]
              rw [hem2, List.cons_append, skipWs_not_ws kc2 _ (keyChar_not_ws kc2 hkc2)]
              rw [← List.cons_append, ← hem2]
              have hhd2 : (entriesChars i (kv2 :: t2) ++
                  ('\n' :: (spacesChars j ++ '\x7d' :: rest))).head? = some kc2 := by
                rw [hem2]; rfl
              rw [if_neg (by
                rw [hhd2]
                intro hcon
                exact keyChar_ne_rbrace kc2 hkc2 (Option.some.inj hcon))]
              rw [IHf.2.2 (kv2 :: t2) i j rest
                (fun w hw => hkeys w (List.mem_cons_of_mem _ hw))
                (fun w hw => hgood w (List.mem_cons_of_mem _ hw)) (by simp)
                (by omega)]

/-! ## C1: round-trip of the serializer

The serializer output is parsed back by the reference parser above.
Null breaks the round trip: `to_hcl_value None` is the text of the
empty string literal, which parses back as the empty string, not as
null.  On null-free trees whose mapping keys are nonempty bare
identifiers (the `GoodVal` predicate) the round trip holds. -/

/-- A concrete `GoodVal` tree exercising every remaining constructor:
a mapping holding a sequence of an integer, a boolean and a finite
float, and a string containing a quote that must be escaped. -/
def c1val : YVal :=
  .dict [("a", .list [.int 1, .bool true, .float "2.5"]), ("b", .str "x\"y")]

/-- C1: the round trip fails at null.  Serializing `None` yields the
two-character text of the empty string literal, and the parser reads
that text back as the empty string — a value different from null. -/
theorem c1_counterexample :
    parseVal 2 ((to_hcl_value .null 0).data) = some (.str "", []) ∧
      YVal.str "" ≠ YVal.null := by
  constructor
  · simp [to_hcl_value, parseVal, parseStrBody]
  · simp

/-- C1 (amended): for every null-free value tree with boolean, integer,
finite-float and string leaves whose mapping keys are nonempty strings
of identifier characters, parsing the serializer output with fuel at
least the size of the tree returns exactly the original value with no
text left over.  A finite float is carried as its canonical shortest
repr (the text Python str prints, which names the float uniquely), so
recovering the repr is recovering the float. -/
theorem c1_round_trip (v : YVal) (i f : Nat) (hg : GoodVal v) (hf : sizeOf v ≤ f) :
    parseVal f ((to_hcl_value v i).data) = some (v, []) := by
  have h := (parse_sound f).1 v i [] hg hf (by rfl)
  simpa using h

/-- Witness: the round trip at the concrete tree `c1val`. -/
theorem c1_witness :
    GoodVal c1val ∧
      parseVal (sizeOf c1val) ((to_hcl_value c1val 0).data) = some (c1val, []) := by
  have hg : GoodVal c1val := by
    refine GoodVal.dict _ ?_ ?_
    · intro kv hkv
      fin_cases hkv <;> exact ⟨by decide, by decide⟩
    · intro kv hkv
      fin_cases hkv
      · exact GoodVal.list _ (by
          intro x hx
          fin_cases hx
          · exact GoodVal.int 1
          · exact GoodVal.bool true
          · exact GoodVal.float "2.5"
              (FloatTok.frac [] ['2'] ['5'] [] (Or.inl rfl) (by decide) (by decide)
                (by decide) (by decide) ExpTok.absent))
      · exact GoodVal.str _
  exact ⟨hg, c1_round_trip c1val 0 (sizeOf c1val) hg (le_refl _)⟩
